import Mathlib

/- Verification of a single-file terminal roguelike (game.cpp): procedural
   dungeon generation, entity placement, single-step BFS pathfinding for
   hostile agents, and the turn resolver with reservation-based collision
   arbitration.  Machine integers are modelled as Int; the global mt19937
   generator is modelled as an explicit stream of natural draws threaded
   through every sampling call. -/

namespace Roguelike

/-- A grid coordinate, mirroring the C++ pair<int,int> (x, y). -/
abbrev Cell := Int × Int

def MAP_W : Int := 20
def MAP_H : Int := 10

/-- Bounds check `x>=0 && x<MAP_W && y>=0 && y<MAP_H` used throughout game.cpp. -/
def inBounds (x y : Int) : Bool :=
  decide (0 ≤ x) && decide (x < MAP_W) && decide (0 ≤ y) && decide (y < MAP_H)

/-- The map: `array<array<char, MAP_W>, MAP_H>`; `cellAt g y x` mirrors `map[y][x]`. -/
abbrev Grid := Int → Int → Char

/-- Model of the RNG: an arbitrary stream of natural numbers indexed by draw count. -/
abbrev RngStream := Nat → Nat

/-- `rnd(a,b)` returns a uniform draw in [a,b]; modelled by reducing the stream's
    next natural modulo the range size.  Returns the drawn value and the next index. -/
def rnd (a b : Int) (g : RngStream) (k : Nat) : Int × Nat :=
  (a + (g k : Int) % (b - a + 1), k + 1)

theorem rnd_ge {a b : Int} (h : a ≤ b) (g : RngStream) (k : Nat) :
    a ≤ (rnd a b g k).1 := by
  have hpos : (0 : Int) < b - a + 1 := by omega
  have := Int.emod_nonneg (g k : Int) (by omega : b - a + 1 ≠ 0)
  simp only [rnd]
  omega

theorem rnd_le {a b : Int} (h : a ≤ b) (g : RngStream) (k : Nat) :
    (rnd a b g k).1 ≤ b := by
  have hpos : (0 : Int) < b - a + 1 := by omega
  have := Int.emod_lt_of_pos (g k : Int) hpos
  simp only [rnd]
  omega

/-- Choosing the stream value `(v - a).toNat` makes `rnd a b` produce exactly `v`. -/
theorem rnd_exact {a b v : Int} (hav : a ≤ v) (hvb : v ≤ b) (g : RngStream) (k : Nat)
    (hg : g k = (v - a).toNat) : (rnd a b g k).1 = v := by
  simp only [rnd, hg]
  have h1 : ((((v - a).toNat : Nat)) : Int) = v - a := Int.toNat_of_nonneg (by omega)
  rw [h1, Int.emod_eq_of_lt (by omega) (by omega)]
  omega

/-- Difficulty tiers. -/
inductive Difficulty
  | EASY
  | NORMAL
  | HARD
deriving DecidableEq

/-- Difficulty configuration record, field order as in game.cpp. -/
structure DiffConfig where
  enemyMin : Int
  enemyMax : Int
  enemyHpMin : Int
  enemyHpMax : Int
  enemyAtkMin : Int
  enemyAtkMax : Int
  potionMin : Int
  potionMax : Int

/-- The three configurations set up at the top of main(). -/
def diffConfigs : Difficulty → DiffConfig
  | .EASY => ⟨2, 4, 3, 5, 1, 2, 5, 7⟩
  | .NORMAL => ⟨3, 6, 4, 8, 2, 3, 3, 5⟩
  | .HARD => ⟨5, 8, 6, 12, 3, 5, 1, 3⟩

/-- Axis-aligned room rectangle. -/
structure Rect where
  x : Int
  y : Int
  w : Int
  h : Int

def Rect.centerX (r : Rect) : Int := r.x + r.w / 2

def Rect.centerY (r : Rect) : Int := r.y + r.h / 2

/-- `Rect::intersects`: overlap test (touching-adjacent is not an overlap). -/
def Rect.intersects (r0 r : Rect) : Bool :=
  !(decide (r0.x + r0.w ≤ r.x) || decide (r.x + r.w ≤ r0.x) ||
    decide (r0.y + r0.h ≤ r.y) || decide (r.y + r.h ≤ r0.y))

/-- Hostile agent record. -/
structure Enemy where
  x : Int
  y : Int
  hp : Int
  alive : Bool
deriving DecidableEq

/-- Pickup record (health potion). -/
structure Item where
  x : Int
  y : Int
deriving DecidableEq

/-- `create_empty_map`: every cell a wall. -/
def create_empty_map : Grid := fun _ _ => '#'

/-- `carve_room`: set every in-bounds cell of the rectangle to Floor. -/
def carve_room (map : Grid) (r : Rect) : Grid := fun yy xx =>
  if r.x ≤ xx ∧ xx < r.x + r.w ∧ r.y ≤ yy ∧ yy < r.y + r.h ∧ inBounds xx yy = true
  then '.' else map yy xx

/-- `carve_h`: horizontal corridor from x1 to x2 (inclusive, either order) at row y. -/
def carve_h (map : Grid) (x1 x2 y : Int) : Grid := fun yy xx =>
  if min x1 x2 ≤ xx ∧ xx ≤ max x1 x2 ∧ yy = y ∧ inBounds xx yy = true
  then '.' else map yy xx

/-- `carve_v`: vertical corridor from y1 to y2 (inclusive, either order) at column x. -/
def carve_v (map : Grid) (y1 y2 x : Int) : Grid := fun yy xx =>
  if min y1 y2 ≤ yy ∧ yy ≤ max y1 y2 ∧ xx = x ∧ inBounds xx yy = true
  then '.' else map yy xx

/-- The list of floor tiles collected by `random_floor_tile`, in scan order
    (y outer, x inner), entries as (x, y). -/
def floorTiles (map : Grid) : List Cell :=
  (List.range 10).flatMap fun y =>
    (List.range 20).filterMap fun x =>
      if map (y : Int) (x : Int) = '.' then some ((x : Int), (y : Int)) else none

/-- `random_floor_tile`: uniform floor tile, or (1,1) when no floor exists. -/
def random_floor_tile (map : Grid) (g : RngStream) (k : Nat) : Cell × Nat :=
  let floors := floorTiles map
  if floors = [] then ((1, 1), k)
  else
    let ik := rnd 0 ((floors.length : Int) - 1) g k
    (floors.getD ik.1.toNat (1, 1), ik.2)

/-! ### BFS pathfinder (`bfs_next_step`, game.cpp lines 69-124) -/

/-- The `blocked` lambda inside `bfs_next_step`: out of bounds, non-floor, or an
    occupied cell other than the target itself. -/
def blockedAt (map : Grid) (occupied : List Cell) (tx ty x y : Int) : Bool :=
  if inBounds x y = false then true
  else if map y x ≠ '.' then true
  else if occupied.any (fun p =>
      decide (p.1 = x) && decide (p.2 = y) && !(decide (x = tx) && decide (y = ty))) then true
  else false

/-- Neighbor exploration order `{{1,0},{-1,0},{0,1},{0,-1}}`. -/
def dirs : List Cell := [(1, 0), (-1, 0), (0, 1), (0, -1)]

/-- Mutable BFS state: visited list (newest first), parent pointers, FIFO queue. -/
structure BfsSt where
  vis : List Cell
  parent : Cell → Option Cell
  queue : List Cell

/-- One candidate push, mirroring the `for(auto &d:dirs)` body: bounds /
    visited / blocked checks, then mark visited, record parent, enqueue. -/
def pushNeighbor (blk : Cell → Bool) (cur : Cell) (st : BfsSt) (d : Cell) : BfsSt :=
  let n : Cell := (cur.1 + d.1, cur.2 + d.2)
  if inBounds n.1 n.2 = false then st
  else if n ∈ st.vis then st
  else if blk n = true then st
  else { vis := n :: st.vis
         parent := Function.update st.parent n (some cur)
         queue := st.queue ++ [n] }

/-- The BFS `while(!q.empty())` loop, with explicit fuel; returns the found flag
    and the final state.  `none` marks fuel exhaustion (proved unreachable). -/
def bfsLoop (blk : Cell → Bool) (t : Cell) : Nat → BfsSt → Option (Bool × BfsSt)
  | 0, _ => none
  | fuel + 1, st =>
    match st.queue with
    | [] => some (false, st)
    | cur :: rest =>
      if cur = t then some (true, { st with queue := rest })
      else bfsLoop blk t fuel (dirs.foldl (pushNeighbor blk cur) { st with queue := rest })

/-- The backtracking loop: walk parent pointers from the target until the parent
    is the start; returns the first step.  `none` marks a missing parent or fuel
    exhaustion (both proved unreachable). -/
def backtrack (parent : Cell → Option Cell) (s : Cell) : Nat → Cell → Option Cell
  | 0, _ => none
  | fuel + 1, cur =>
    match parent cur with
    | none => none
    | some prev => if prev = s then some cur else backtrack parent s fuel prev

/-- Fuel for the BFS loop: strictly more than queue length plus twice the number
    of never-visited cells can ever total. -/
def bfsFuel : Nat := 402

/-- Fuel for backtracking: strictly more than the number of grid cells. -/
def btFuel : Nat := 201

/-- `bfs_next_step`: one step from (sx,sy) toward (tx,ty); BFS first, then the
    greedy fallback, preferring the axis with the larger absolute distance
    (ties favor x), else stay. -/
def stepBlk (map : Grid) (occupied : List Cell) (tx ty : Int) (c : Cell) : Bool :=
  blockedAt map occupied tx ty c.1 c.2

def bfs_next_step (map : Grid) (sx sy tx ty : Int) (occupied : List Cell) : Option Cell :=
  if sx = tx ∧ sy = ty then some (sx, sy)
  else
    let blk : Cell → Bool := stepBlk map occupied tx ty
    let st0 : BfsSt := { vis := [(sx, sy)], parent := fun _ => none, queue := [(sx, sy)] }
    match bfsLoop blk (tx, ty) bfsFuel st0 with
    | none => none
    | some (found, st) =>
      if found then backtrack st.parent (sx, sy) btFuel (tx, ty)
      else
        let dx : Int := if tx > sx then 1 else if tx < sx then -1 else 0
        let dy : Int := if ty > sy then 1 else if ty < sy then -1 else 0
        if (tx - sx).natAbs ≥ (ty - sy).natAbs then
          if blk (sx + dx, sy) = false then some (sx + dx, sy)
          else if blk (sx, sy + dy) = false then some (sx, sy + dy)
          else some (sx, sy)
        else
          if blk (sx, sy + dy) = false then some (sx, sy + dy)
          else if blk (sx + dx, sy) = false then some (sx + dx, sy)
          else some (sx, sy)

/-! ### Dungeon generation (`generate_map_basic`, game.cpp lines 164-196) -/

/-- The `any` scan at the end of `generate_map_basic`. -/
def anyFloor (map : Grid) : Bool :=
  (List.range 10).any fun y => (List.range 20).any fun x => map (y : Int) (x : Int) == '.'

/-- Fallback carve of the whole interior (1-cell border kept). -/
def interior_floor (map : Grid) : Grid := fun y x =>
  if 1 ≤ x ∧ x < MAP_W - 1 ∧ 1 ≤ y ∧ y < MAP_H - 1 then '.' else map y x

/-- The room-placement loop of `generate_map_basic`.  `remaining` counts rooms
    still to accept; a rejected candidate retries the same slot (`i--`), so the
    loop carries explicit fuel and `none` marks exhaustion. -/
def genRoomsLoop (g : RngStream) : Nat → Nat → Grid → List Rect → Nat →
    Option (Grid × List Rect × Nat)
  | 0, _, _, _, _ => none
  | fuel + 1, remaining, map, rooms, k =>
    if remaining = 0 then some (map, rooms, k)
    else
      let w := rnd 3 8 g k
      let h := rnd 3 5 g w.2
      let rx := rnd 1 (MAP_W - w.1 - 1) g h.2
      let ry := rnd 1 (MAP_H - h.1 - 1) g rx.2
      let r : Rect := ⟨rx.1, ry.1, w.1, h.1⟩
      if rooms.any (fun o => r.intersects o) then
        genRoomsLoop g fuel remaining map rooms ry.2
      else
        let map1 := carve_room map r
        if rooms.isEmpty then
          genRoomsLoop g fuel (remaining - 1) map1 (rooms ++ [r]) ry.2
        else
          let prev := rooms.getLastD ⟨0, 0, 0, 0⟩
          let px := prev.centerX
          let py := prev.centerY
          let cx := r.centerX
          let cy := r.centerY
          let coin := rnd 0 1 g ry.2
          let map2 :=
            if coin.1 = 0 then carve_v (carve_h map1 px cx py) py cy cx
            else carve_h (carve_v map1 py cy px) px cx cy
          genRoomsLoop g fuel (remaining - 1) map2 (rooms ++ [r]) coin.2

/-- `generate_map_basic`: empty map, sample a room count in [3,6], run the
    placement loop, then the zero-floor fallback. -/
def generate_map_basic (g : RngStream) (fuel : Nat) (k : Nat) :
    Option (Grid × List Rect × Nat) :=
  let rc := rnd 3 6 g k
  match genRoomsLoop g fuel rc.1.toNat create_empty_map [] rc.2 with
  | none => none
  | some (map, rooms, k2) =>
    let map' := if anyFloor map then map else interior_floor map
    some (map', rooms, k2)

/-! ### Entity placement (`regenerate_map`, game.cpp lines 199-245) -/

/-- The enemy-placement loop: draw a floor tile, retry on the player's cell or a
    clash with an already-placed enemy, else assign HP and keep it. -/
def placeEnemiesLoop (g : RngStream) (map : Grid) (px py hpMin hpMax : Int) :
    Nat → Nat → List Enemy → Nat → Option (List Enemy × Nat)
  | 0, _, _, _ => none
  | fuel + 1, remaining, acc, k =>
    if remaining = 0 then some (acc, k)
    else
      let p := random_floor_tile map g k
      if p.1.1 = px ∧ p.1.2 = py then
        placeEnemiesLoop g map px py hpMin hpMax fuel remaining acc p.2
      else if acc.any (fun e => decide (e.x = p.1.1) && decide (e.y = p.1.2)) then
        placeEnemiesLoop g map px py hpMin hpMax fuel remaining acc p.2
      else
        let hp := rnd hpMin hpMax g p.2
        placeEnemiesLoop g map px py hpMin hpMax fuel (remaining - 1)
          (acc ++ [⟨p.1.1, p.1.2, hp.1, true⟩]) hp.2

/-- The potion-placement loop: retry on the player's cell or a clash with an
    already-placed item or any enemy. -/
def placeItemsLoop (g : RngStream) (map : Grid) (px py : Int) (enemies : List Enemy) :
    Nat → Nat → List Item → Nat → Option (List Item × Nat)
  | 0, _, _, _ => none
  | fuel + 1, remaining, acc, k =>
    if remaining = 0 then some (acc, k)
    else
      let p := random_floor_tile map g k
      if p.1.1 = px ∧ p.1.2 = py then
        placeItemsLoop g map px py enemies fuel remaining acc p.2
      else if (acc.any (fun it => decide (it.x = p.1.1) && decide (it.y = p.1.2))) ||
              (enemies.any (fun e => decide (e.x = p.1.1) && decide (e.y = p.1.2))) then
        placeItemsLoop g map px py enemies fuel remaining acc p.2
      else
        placeItemsLoop g map px py enemies fuel (remaining - 1) (acc ++ [⟨p.1.1, p.1.2⟩]) p.2

/-- Result of `regenerate_map`: the out-parameters it assigns. -/
structure Placement where
  map : Grid
  rooms : List Rect
  playerX : Int
  playerY : Int
  enemies : List Enemy
  items : List Item
  playerMaxHP : Int
  playerAttack : Int
  enemyAttackDamage : Int
  potionHeal : Int
  score : Int

/-- `regenerate_map`: build the map, place the player (center of the first room,
    or a random floor tile), the enemies, the items, and set baseline stats. -/
def regenerate_map (g : RngStream) (diff : Difficulty) (fuel : Nat) (k : Nat) :
    Option (Placement × Nat) :=
  match generate_map_basic g fuel k with
  | none => none
  | some (map, rooms, k1) =>
    let pp : Cell × Nat :=
      match rooms with
      | r0 :: _ => ((r0.centerX, r0.centerY), k1)
      | [] => random_floor_tile map g k1
    let cfg := diffConfigs diff
    let ec := rnd cfg.enemyMin cfg.enemyMax g pp.2
    match placeEnemiesLoop g map pp.1.1 pp.1.2 cfg.enemyHpMin cfg.enemyHpMax fuel ec.1.toNat [] ec.2 with
    | none => none
    | some (enemies, k4) =>
      let pc := rnd cfg.potionMin cfg.potionMax g k4
      match placeItemsLoop g map pp.1.1 pp.1.2 enemies fuel pc.1.toNat [] pc.2 with
      | none => none
      | some (items, k6) =>
        let ead := rnd cfg.enemyAtkMin cfg.enemyAtkMax g k6
        some ({ map := map, rooms := rooms, playerX := pp.1.1, playerY := pp.1.2,
                enemies := enemies, items := items, playerMaxHP := 20, playerAttack := 4,
                enemyAttackDamage := ead.1, potionHeal := 0, score := 0 }, ead.2)

/-! ### Turn resolver (main loop, game.cpp lines 292-431) -/

/-- `enemy_index_at`: index of the first live enemy at (x,y), if any. -/
def enemy_index_at : List Enemy → Int → Int → Option Nat
  | [], _, _ => none
  | e :: es, x, y =>
    if e.alive = true ∧ e.x = x ∧ e.y = y then some 0
    else (enemy_index_at es x y).map (· + 1)

/-- `item_index_at`: index of the first item at (x,y), if any. -/
def item_index_at : List Item → Int → Int → Option Nat
  | [], _, _ => none
  | it :: its, x, y =>
    if it.x = x ∧ it.y = y then some 0
    else (item_index_at its x y).map (· + 1)

/-- The mutable state of the main loop (the Session minus the high score, which
    lives beside it). -/
structure Session where
  map : Grid
  playerX : Int
  playerY : Int
  playerHP : Int
  playerMaxHP : Int
  playerAttack : Int
  enemies : List Enemy
  items : List Item
  score : Int
  turns : Int
  diff : Difficulty

/-- Placeholder enemy for `getD`; never used on the verified paths. -/
def junkEnemy : Enemy := ⟨-1, -1, 0, false⟩

/-- The player-action branch of the main loop for an in-bounds destination
    (nx,ny): wall bump, melee, pickup, or plain move (lines 327-364). -/
def applyPlayerAction (s : Session) (nx ny : Int) (g : RngStream) (k : Nat) :
    Session × Nat :=
  if s.map ny nx = '#' then ({ s with turns := s.turns + 1 }, k)
  else
    match enemy_index_at s.enemies nx ny with
    | some eidx =>
      let e := s.enemies.getD eidx junkEnemy
      let e1 : Enemy := { e with hp := e.hp - s.playerAttack }
      if e1.hp ≤ 0 then
        ({ s with enemies := s.enemies.set eidx { e1 with alive := false },
                  score := s.score + 10, playerX := nx, playerY := ny,
                  turns := s.turns + 1 }, k)
      else
        ({ s with enemies := s.enemies.set eidx e1, turns := s.turns + 1 }, k)
    | none =>
      match item_index_at s.items nx ny with
      | some itidx =>
        let heal := rnd 6 10 g k
        ({ s with playerHP := min s.playerMaxHP (s.playerHP + heal.1),
                  items := s.items.eraseIdx itidx,
                  playerX := nx, playerY := ny, turns := s.turns + 1 }, heal.2)
      | none =>
        ({ s with playerX := nx, playerY := ny, turns := s.turns + 1 }, k)

/-- The per-agent obstacle list built during planning: every *other* live
    enemy's current position, in index order. -/
def occFor (enemies : List Enemy) (i : Nat) : List Cell :=
  (enemies.enum.filter (fun je => decide (je.1 ≠ i) && je.2.alive)).map
    (fun je => (je.2.x, je.2.y))

/-- `PlanAgentMoves`: each live enemy's intended destination from the pre-move
    snapshot; dead enemies get (-1,-1). -/
def planMoves (s : Session) : Option (List Cell) :=
  s.enemies.enum.mapM fun ie =>
    if ie.2.alive = true then
      bfs_next_step s.map ie.2.x ie.2.y s.playerX s.playerY (occFor s.enemies ie.1)
    else some ((-1 : Int), (-1 : Int))

/-- `ResolveAgentMoves` (lines 382-414): sequential resolution over the zipped
    (enemy, intended) list with a reservation set; returns the updated enemies,
    the reservation set, the player's HP, and the RNG index. -/
def resolveMoves (map : Grid) (atkMin atkMax px py : Int) (g : RngStream) :
    List (Enemy × Cell) → List Cell → Int → Nat →
    List Enemy × List Cell × Int × Nat
  | [], reserved, hp, k => ([], reserved, hp, k)
  | (e, intended) :: rest, reserved, hp, k =>
    if e.alive = false then
      let out := resolveMoves map atkMin atkMax px py g rest reserved hp k
      (e :: out.1, out.2)
    else if intended.1 = px ∧ intended.2 = py then
      let edmg := rnd atkMin atkMax g k
      let out := resolveMoves map atkMin atkMax px py g rest
        (List.insert (e.x, e.y) reserved) (hp - edmg.1) edmg.2
      (e :: out.1, out.2)
    else if intended.1 < 0 ∨ map intended.2 intended.1 ≠ '.' ∨ intended ∈ reserved then
      let out := resolveMoves map atkMin atkMax px py g rest
        (List.insert (e.x, e.y) reserved) hp k
      (e :: out.1, out.2)
    else
      let e1 : Enemy := { e with x := intended.1, y := intended.2 }
      let out := resolveMoves map atkMin atkMax px py g rest
        (List.insert intended reserved) hp k
      (e1 :: out.1, out.2)

/-- The post-resolution re-scan (lines 417-427): every live enemy sharing the
    player's cell deals one more damage roll. -/
def rescanHits (atkMin atkMax px py : Int) (g : RngStream) :
    List Enemy → Int → Nat → Int × Nat
  | [], hp, k => (hp, k)
  | e :: rest, hp, k =>
    if e.alive = true ∧ e.x = px ∧ e.y = py then
      let edmg := rnd atkMin atkMax g k
      rescanHits atkMin atkMax px py g rest (hp - edmg.1) edmg.2
    else rescanHits atkMin atkMax px py g rest hp k

/-- The whole enemy turn: plan, resolve, re-scan, cap HP at 999. -/
def enemyPhase (s : Session) (g : RngStream) (k : Nat) : Option (Session × Nat) :=
  match planMoves s with
  | none => none
  | some nextPos =>
    let cfg := diffConfigs s.diff
    let out := resolveMoves s.map cfg.enemyAtkMin cfg.enemyAtkMax s.playerX s.playerY g
      (s.enemies.zip nextPos) [] s.playerHP k
    let hp2 := rescanHits cfg.enemyAtkMin cfg.enemyAtkMax s.playerX s.playerY g
      out.1 out.2.2.1 out.2.2.2
    let hp3 := if hp2.1 > 999 then 999 else hp2.1
    some ({ s with enemies := out.1, playerHP := hp3 }, hp2.2)

/-- Direction deltas for w/a/s/d (either case). -/
def moveDelta (ch : Char) : Option Cell :=
  if ch = 'w' ∨ ch = 'W' then some (0, -1)
  else if ch = 's' ∨ ch = 'S' then some (0, 1)
  else if ch = 'a' ∨ ch = 'A' then some (-1, 0)
  else if ch = 'd' ∨ ch = 'D' then some (1, 0)
  else none

/-- Outcome of one main-loop iteration.  Exit constructors record whether the
    high score file was written (`saved`). -/
inductive StepResult
  | deathExit (saved : Bool)
  | inputFail
  | quitExit (saved : Bool)
  | rejected (s : Session)
  | next (s : Session)

/-- Whether an iteration outcome wrote the high-score file. -/
def exitSaves : StepResult → Bool
  | .deathExit b => b
  | .quitExit b => b
  | _ => false

/-- One iteration of the main `while(true)` loop (lines 292-431).  `input` is
    the per-turn read: `none` models a failed `cin>>ch` (malformed stream or
    EOF). -/
def loopIter (s : Session) (highScore : Int) (input : Option Char) (g : RngStream)
    (k : Nat) : Option (StepResult × Nat) :=
  if s.playerHP ≤ 0 then some (.deathExit (decide (s.score > highScore)), k)
  else
    match input with
    | none => some (.inputFail, k)
    | some ch =>
      if ch = 'q' ∨ ch = 'Q' then some (.quitExit (decide (s.score > highScore)), k)
      else
        match moveDelta ch with
        | none => some (.rejected s, k)
        | some d =>
          let nx := s.playerX + d.1
          let ny := s.playerY + d.2
          if nx < 0 ∨ nx ≥ MAP_W ∨ ny < 0 ∨ ny ≥ MAP_H then some (.rejected s, k)
          else
            let s1 := applyPlayerAction s nx ny g k
            match enemyPhase s1.1 g s1.2 with
            | none => none
            | some (s2, k2) => some (.next s2, k2)

/-- The Session assembled by main() right after `regenerate_map`. -/
def initialSession (p : Placement) (diff : Difficulty) : Session :=
  { map := p.map, playerX := p.playerX, playerY := p.playerY,
    playerHP := p.playerMaxHP, playerMaxHP := p.playerMaxHP,
    playerAttack := p.playerAttack, enemies := p.enemies, items := p.items,
    score := p.score, turns := 0, diff := diff }

/-- States reachable by the run loop: the initial placement, then any number of
    completed turns. -/
inductive Reachable : Session → Prop
  | init (g : RngStream) (diff : Difficulty) (fuel k : Nat) (p : Placement) (k' : Nat)
      (h : regenerate_map g diff fuel k = some (p, k')) :
      Reachable (initialSession p diff)
  | step (s s' : Session) (hs : Int) (input : Option Char) (g : RngStream) (k k' : Nat)
      (hr : Reachable s) (h : loopIter s hs input g k = some (.next s', k')) :
      Reachable s'

/-! ### Basic inversion lemmas -/

theorem enemy_index_at_spec (es : List Enemy) (x y : Int) (i : Nat)
    (h : enemy_index_at es x y = some i) :
    i < es.length ∧ (es.getD i junkEnemy).alive = true ∧
    (es.getD i junkEnemy).x = x ∧ (es.getD i junkEnemy).y = y := by
  induction es generalizing i with
  | nil => simp [enemy_index_at] at h
  | cons e es ih =>
    by_cases hc : e.alive = true ∧ e.x = x ∧ e.y = y
    · simp only [enemy_index_at, if_pos hc, Option.some.injEq] at h
      subst h
      simpa using hc
    · simp only [enemy_index_at, if_neg hc, Option.map_eq_some'] at h
      obtain ⟨j, hj, rfl⟩ := h
      obtain ⟨h1, h2, h3, h4⟩ := ih j hj
      refine ⟨by simpa using h1, ?_, ?_, ?_⟩ <;> rw [List.getD_cons_succ] <;> assumption

theorem item_index_at_spec (its : List Item) (x y : Int) (i : Nat)
    (h : item_index_at its x y = some i) :
    i < its.length ∧ (its.getD i ⟨-1, -1⟩).x = x ∧ (its.getD i ⟨-1, -1⟩).y = y := by
  induction its generalizing i with
  | nil => simp [item_index_at] at h
  | cons it its ih =>
    by_cases hc : it.x = x ∧ it.y = y
    · simp only [item_index_at, if_pos hc, Option.some.injEq] at h
      subst h
      simpa using hc
    · simp only [item_index_at, if_neg hc, Option.map_eq_some'] at h
      obtain ⟨j, hj, rfl⟩ := h
      obtain ⟨h1, h2, h3⟩ := ih j hj
      refine ⟨by simpa using h1, ?_, ?_⟩ <;> rw [List.getD_cons_succ] <;> assumption

/-! ### C5: melee resolution -/

/-- C5: when the player's destination holds a live agent, the player's attack is
    subtracted from that agent's HP; at HP ≤ 0 the agent leaves the live set,
    score rises by exactly 10 and the player moves in; at HP > 0 the agent stays
    alive with HP reduced by exactly the attack and the player does not move;
    both branches bump the turn counter by one and change no other agent, no
    pickup, and no player HP. -/
theorem C5_melee_resolution (s : Session) (nx ny : Int) (g : RngStream) (k : Nat)
    (eidx : Nat) (hw : s.map ny nx ≠ '#')
    (he : enemy_index_at s.enemies nx ny = some eidx) :
    (let e := s.enemies.getD eidx junkEnemy
     let s' := (applyPlayerAction s nx ny g k).1
     (e.hp - s.playerAttack ≤ 0 →
        s'.enemies = s.enemies.set eidx { e with hp := e.hp - s.playerAttack, alive := false } ∧
        s'.score = s.score + 10 ∧ s'.playerX = nx ∧ s'.playerY = ny) ∧
     (0 < e.hp - s.playerAttack →
        s'.enemies = s.enemies.set eidx { e with hp := e.hp - s.playerAttack } ∧
        (s'.enemies.getD eidx junkEnemy).alive = true ∧
        s'.score = s.score ∧ s'.playerX = s.playerX ∧ s'.playerY = s.playerY) ∧
     s'.turns = s.turns + 1 ∧ s'.items = s.items ∧ s'.playerHP = s.playerHP ∧
     (∀ j, j ≠ eidx → s'.enemies[j]? = s.enemies[j]?)) := by
  intro e s'
  obtain ⟨hlen, halive, hx, hy⟩ := enemy_index_at_spec s.enemies nx ny eidx he
  have hs' : s' = (applyPlayerAction s nx ny g k).1 := rfl
  by_cases hkill : e.hp - s.playerAttack ≤ 0
  · have hEq : s' =
        { s with enemies := s.enemies.set eidx { e with hp := e.hp - s.playerAttack, alive := false },
                 score := s.score + 10, playerX := nx, playerY := ny, turns := s.turns + 1 } := by
      rw [hs']
      simp only [applyPlayerAction, if_neg hw, he]
      simp only [if_pos hkill]
    rw [hEq]
    refine ⟨fun _ => ⟨rfl, rfl, rfl, rfl⟩, fun hpos => absurd hkill (by omega), rfl, rfl, rfl, ?_⟩
    intro j hj
    exact List.getElem?_set_ne (by omega : eidx ≠ j)
  · have hEq : s' =
        { s with enemies := s.enemies.set eidx { e with hp := e.hp - s.playerAttack },
                 turns := s.turns + 1 } := by
      rw [hs']
      simp only [applyPlayerAction, if_neg hw, he]
      simp only [if_neg hkill]
    rw [hEq]
    refine ⟨fun hk => absurd hk hkill, fun _ => ⟨rfl, ?_, rfl, rfl, rfl⟩, rfl, rfl, rfl, ?_⟩
    · simp only [List.getD_eq_getElem?_getD]
      rw [List.getElem?_set_self (by simpa using hlen)]
      simp only [Option.getD_some]
      exact halive
    · intro j hj
      exact List.getElem?_set_ne (by omega : eidx ≠ j)

/-- Concrete session: open floor, player at (2,2), one live enemy at (3,2) with 3 HP. -/
def sW5 : Session :=
  { map := fun _ _ => '.', playerX := 2, playerY := 2, playerHP := 20, playerMaxHP := 20,
    playerAttack := 4, enemies := [⟨3, 2, 3, true⟩], items := [], score := 0, turns := 0,
    diff := .NORMAL }

theorem C5_melee_resolution_witness :
    sW5.map 2 3 ≠ '#' ∧ enemy_index_at sW5.enemies 3 2 = some 0 ∧
    (applyPlayerAction sW5 3 2 (fun _ => 0) 0).1.score = sW5.score + 10 ∧
    (applyPlayerAction sW5 3 2 (fun _ => 0) 0).1.playerX = 3 ∧
    (applyPlayerAction sW5 3 2 (fun _ => 0) 0).1.turns = sW5.turns + 1 := by
  have h := C5_melee_resolution sW5 3 2 (fun _ => 0) 0 0 (by decide) rfl
  exact ⟨by decide, rfl, (h.1 (by decide)).2.1, (h.1 (by decide)).2.2.1, h.2.2.1⟩

/-! ### C6: potion pickup -/

/-- C6: when the destination holds a pickup and no live agent, a heal amount is
    drawn by `rnd 6 10` (so it lies in [6,10]), the player's HP becomes
    min(maxHP, HP + heal), the pickup is removed, the player moves in, the turn
    counter bumps; in particular at HP = maxHP - 3 with a roll of 10 the HP
    lands exactly on maxHP. -/
theorem C6_potion_pickup (s : Session) (nx ny : Int) (g : RngStream) (k : Nat)
    (itidx : Nat) (hw : s.map ny nx ≠ '#')
    (he : enemy_index_at s.enemies nx ny = none)
    (hi : item_index_at s.items nx ny = some itidx) :
    (let heal := (rnd 6 10 g k).1
     let s' := (applyPlayerAction s nx ny g k).1
     6 ≤ heal ∧ heal ≤ 10 ∧
     s'.playerHP = min s.playerMaxHP (s.playerHP + heal) ∧
     s'.items = s.items.eraseIdx itidx ∧
     s'.playerX = nx ∧ s'.playerY = ny ∧ s'.turns = s.turns + 1 ∧
     s'.enemies = s.enemies ∧ s'.score = s.score ∧
     (s.playerHP = s.playerMaxHP - 3 → heal = 10 → s'.playerHP = s.playerMaxHP)) := by
  intro heal s'
  have hEq : s' =
      { s with playerHP := min s.playerMaxHP (s.playerHP + heal),
               items := s.items.eraseIdx itidx,
               playerX := nx, playerY := ny, turns := s.turns + 1 } := by
    show (applyPlayerAction s nx ny g k).1 = _
    simp only [applyPlayerAction, if_neg hw, he, hi]
  rw [hEq]
  refine ⟨rnd_ge (by norm_num) g k, rnd_le (by norm_num) g k, rfl, rfl, rfl, rfl, rfl, rfl, rfl, ?_⟩
  intro hhp hroll
  simp only [hhp, hroll]
  omega

/-- Concrete session: open floor, a potion at (3,2), player HP 17 of max 20; the
    stream makes the heal roll 10. -/
def sW6 : Session :=
  { map := fun _ _ => '.', playerX := 2, playerY := 2, playerHP := 17, playerMaxHP := 20,
    playerAttack := 4, enemies := [], items := [⟨3, 2⟩], score := 0, turns := 0,
    diff := .NORMAL }

theorem C6_potion_pickup_witness :
    (rnd 6 10 (fun _ => 4) 0).1 = 10 ∧
    (applyPlayerAction sW6 3 2 (fun _ => 4) 0).1.playerHP = sW6.playerMaxHP ∧
    (applyPlayerAction sW6 3 2 (fun _ => 4) 0).1.items = [] := by
  have h := C6_potion_pickup sW6 3 2 (fun _ => 4) 0 0 (by decide) rfl rfl
  exact ⟨by decide, h.2.2.2.2.2.2.2.2.2 (by decide) (by decide), h.2.2.2.1⟩

/-! ### C4: input failure ends the run without the high-score flush -/

/-- Concrete session with positive score and HP. -/
def sW4 : Session :=
  { map := fun _ _ => '.', playerX := 2, playerY := 2, playerHP := 10, playerMaxHP := 20,
    playerAttack := 4, enemies := [], items := [], score := 15, turns := 3,
    diff := .NORMAL }

/-- C4 counterexample: at score 15 against best 0, a failed per-turn read exits
    through the plain `break` with no high-score write, while an explicit quit
    from the same state does write it — so the failed read is *not* handled
    "exactly as on an explicit quit". -/
theorem C4_counterexample :
    loopIter sW4 0 none (fun _ => 0) 0 = some (.inputFail, 0) ∧
    exitSaves .inputFail = false ∧
    sW4.score > 0 ∧
    loopIter sW4 0 (some 'q') (fun _ => 0) 0 = some (.quitExit true, 0) ∧
    exitSaves (.quitExit true) = true := by
  refine ⟨?_, rfl, by decide, ?_, rfl⟩ <;> rfl

/-- C4 amended: a failed per-turn read terminates the run gracefully (a loop
    break without death messaging), but the high score is *not* flushed on this
    path; only the death and explicit-quit exits compare and persist it. -/
theorem C4_eof_graceful_no_flush (s : Session) (hs : Int) (g : RngStream) (k : Nat)
    (hhp : 0 < s.playerHP) :
    loopIter s hs none g k = some (.inputFail, k) ∧
    exitSaves .inputFail = false ∧
    (∀ b, exitSaves (.quitExit b) = b) := by
  refine ⟨?_, rfl, fun b => rfl⟩
  simp only [loopIter, if_neg (by omega : ¬ s.playerHP ≤ 0)]

theorem C4_eof_graceful_no_flush_witness :
    loopIter sW4 0 none (fun _ => 0) 0 = some (.inputFail, 0) ∧
    exitSaves .inputFail = false := by
  have h := C4_eof_graceful_no_flush sW4 0 (fun _ => 0) 0 (by decide)
  exact ⟨h.1, h.2.1⟩

/-! ### C1: sequential resolution with a reservation set -/

/-- C1: processing is in array order with a reservation set.  A live agent whose
    intended destination is the player's cell rolls `rnd` damage from the
    tier's attack range against the player and stays, reserving its original
    cell; otherwise it moves to the intended cell iff that cell is Floor and not
    already reserved (reserving the destination), and stays, reserving its
    original cell, when the move is illegal. -/
theorem C1_resolve_agent_moves (map : Grid) (atkMin atkMax px py : Int)
    (g : RngStream) (e : Enemy) (intended : Cell) (rest : List (Enemy × Cell))
    (reserved : List Cell) (hp : Int) (k : Nat) (halive : e.alive = true)
    (hb : inBounds intended.1 intended.2 = true) (hatk : atkMin ≤ atkMax) :
    (intended = (px, py) →
       resolveMoves map atkMin atkMax px py g ((e, intended) :: rest) reserved hp k =
         (let out := resolveMoves map atkMin atkMax px py g rest
            (List.insert (e.x, e.y) reserved) (hp - (rnd atkMin atkMax g k).1) (rnd atkMin atkMax g k).2
          (e :: out.1, out.2)) ∧
       atkMin ≤ (rnd atkMin atkMax g k).1 ∧ (rnd atkMin atkMax g k).1 ≤ atkMax) ∧
    (intended ≠ (px, py) → map intended.2 intended.1 = '.' → intended ∉ reserved →
       resolveMoves map atkMin atkMax px py g ((e, intended) :: rest) reserved hp k =
         (let out := resolveMoves map atkMin atkMax px py g rest
            (List.insert intended reserved) hp k
          ({ e with x := intended.1, y := intended.2 } :: out.1, out.2))) ∧
    (intended ≠ (px, py) → ¬(map intended.2 intended.1 = '.' ∧ intended ∉ reserved) →
       resolveMoves map atkMin atkMax px py g ((e, intended) :: rest) reserved hp k =
         (let out := resolveMoves map atkMin atkMax px py g rest
            (List.insert (e.x, e.y) reserved) hp k
          (e :: out.1, out.2))) := by
  have hge : ¬ intended.1 < 0 := by
    simp only [inBounds, Bool.and_eq_true, decide_eq_true_eq] at hb
    omega
  refine ⟨?_, ?_, ?_⟩
  · intro hpl
    subst hpl
    refine ⟨?_, rnd_ge hatk g k, rnd_le hatk g k⟩
    simp only [resolveMoves]
    rw [if_neg (by simp [halive]), if_pos (by exact ⟨trivial, trivial⟩)]
  · intro hne hfloor hres
    have hnp : ¬(intended.1 = px ∧ intended.2 = py) := by
      intro hc
      exact hne (Prod.ext hc.1 hc.2)
    have hnb : ¬(intended.1 < 0 ∨ map intended.2 intended.1 ≠ '.' ∨ intended ∈ reserved) := by
      push_neg
      exact ⟨by omega, hfloor, hres⟩
    simp only [resolveMoves]
    rw [if_neg (by simp [halive]), if_neg hnp, if_neg hnb]
  · intro hne hblk
    have hnp : ¬(intended.1 = px ∧ intended.2 = py) := by
      intro hc
      exact hne (Prod.ext hc.1 hc.2)
    have hbk : intended.1 < 0 ∨ map intended.2 intended.1 ≠ '.' ∨ intended ∈ reserved := by
      by_cases hf : map intended.2 intended.1 = '.'
      · by_cases hr : intended ∈ reserved
        · exact Or.inr (Or.inr hr)
        · exact absurd ⟨hf, hr⟩ hblk
      · exact Or.inr (Or.inl hf)
    simp only [resolveMoves]
    rw [if_neg (by simp [halive]), if_neg hnp, if_pos hbk]

/-- All-floor grid for concrete runs. -/
def mapW : Grid := fun _ _ => '.'

theorem C1_resolve_agent_moves_witness :
    resolveMoves mapW 2 3 2 2 (fun _ => 0) [(⟨3, 2, 5, true⟩, (2, 2))] [] 20 0 =
      (let out := resolveMoves mapW 2 3 2 2 (fun _ => 0) []
         (List.insert (((3 : Int), (2 : Int)) : Cell) []) (20 - (rnd 2 3 (fun _ => 0) 0).1)
         (rnd 2 3 (fun _ => 0) 0).2
       ((⟨3, 2, 5, true⟩ : Enemy) :: out.1, out.2)) ∧
    2 ≤ (rnd 2 3 (fun _ => 0) 0).1 ∧ (rnd 2 3 (fun _ => 0) 0).1 ≤ 3 :=
  (C1_resolve_agent_moves mapW 2 3 2 2 (fun _ => 0) ⟨3, 2, 5, true⟩ (2, 2) [] [] 20 0
    rfl (by decide) (by decide)).1 rfl

/-! ### C8: at least one floor cell in every generated grid -/

theorem anyFloor_spec (m : Grid) (h : anyFloor m = true) :
    ∃ x y, inBounds x y = true ∧ m y x = '.' := by
  simp only [anyFloor, List.any_eq_true, List.mem_range, beq_iff_eq] at h
  obtain ⟨y, hy, x, hx, hfl⟩ := h
  refine ⟨x, y, ?_, hfl⟩
  simp only [inBounds, MAP_W, MAP_H, Bool.and_eq_true, decide_eq_true_eq]
  omega

/-- Core fact shared by several claims: every generated grid has a floor cell. -/
theorem generate_map_has_floor (g : RngStream) (fuel k : Nat) (map : Grid)
    (rooms : List Rect) (k' : Nat)
    (h : generate_map_basic g fuel k = some (map, rooms, k')) :
    ∃ x y, inBounds x y = true ∧ map y x = '.' := by
  simp only [generate_map_basic] at h
  cases hg : genRoomsLoop g fuel (rnd 3 6 g k).1.toNat create_empty_map [] (rnd 3 6 g k).2 with
  | none => rw [hg] at h; exact absurd h (by simp)
  | some res =>
    obtain ⟨m, rooms0, k2⟩ := res
    rw [hg] at h
    simp only [Option.some.injEq, Prod.mk.injEq] at h
    obtain ⟨hmap, _, _⟩ := h
    by_cases hany : anyFloor m = true
    · rw [if_pos hany] at hmap
      subst hmap
      exact anyFloor_spec m hany
    · rw [if_neg hany] at hmap
      subst hmap
      refine ⟨1, 1, by decide, ?_⟩
      simp only [interior_floor, MAP_W, MAP_H]
      norm_num

/-- C8: every grid produced by `generate_map_basic` contains at least one floor
    cell; if room carving yielded none, the interior fallback provides it, for
    every RNG stream. -/
theorem C8_floor_exists (g : RngStream) (fuel k : Nat) (map : Grid)
    (rooms : List Rect) (k' : Nat)
    (h : generate_map_basic g fuel k = some (map, rooms, k')) :
    ∃ x y, inBounds x y = true ∧ map y x = '.' :=
  generate_map_has_floor g fuel k map rooms k' h

/-- Witness RNG stream: draws chosen so the generator accepts three disjoint
    3x3 rooms at (1,1), (5,1), (9,1). -/
def gW : RngStream := fun k =>
  [0, 0, 0, 0, 0, 0, 0, 4, 0, 0, 0, 0, 8, 0, 0].getD k 0

/-- The concrete generated result for the witness stream. -/
def genW8 : Grid × List Rect × Nat :=
  (generate_map_basic gW 40 0).getD (create_empty_map, [], 0)

theorem C8_floor_exists_witness :
    ∃ x y, inBounds x y = true ∧ genW8.1 y x = '.' :=
  C8_floor_exists gW 40 0 genW8.1 genW8.2.1 genW8.2.2 rfl

/-! ### C7: placement puts everything on distinct floor cells -/

/-- Shape facts every accepted room satisfies by construction of its samples. -/
def RoomOk (r : Rect) : Prop :=
  1 ≤ r.x ∧ r.x + r.w ≤ MAP_W - 1 ∧ 1 ≤ r.y ∧ r.y + r.h ≤ MAP_H - 1 ∧ 3 ≤ r.w ∧ 3 ≤ r.h

/-- Every cell of every listed room is floor on the map. -/
def RoomsCarved (map : Grid) (rooms : List Rect) : Prop :=
  ∀ r ∈ rooms, ∀ x y : Int, r.x ≤ x → x < r.x + r.w → r.y ≤ y → y < r.y + r.h →
    inBounds x y = true → map y x = '.'

theorem carve_room_mono (map : Grid) (r : Rect) (x y : Int) (h : map y x = '.') :
    carve_room map r y x = '.' := by
  unfold carve_room
  split
  · rfl
  · exact h

theorem carve_h_mono (map : Grid) (x1 x2 yy x y : Int) (h : map y x = '.') :
    carve_h map x1 x2 yy y x = '.' := by
  unfold carve_h
  split
  · rfl
  · exact h

theorem carve_v_mono (map : Grid) (y1 y2 xx x y : Int) (h : map y x = '.') :
    carve_v map y1 y2 xx y x = '.' := by
  unfold carve_v
  split
  · rfl
  · exact h

theorem interior_floor_mono (map : Grid) (x y : Int) (h : map y x = '.') :
    interior_floor map y x = '.' := by
  unfold interior_floor
  split
  · rfl
  · exact h

theorem carve_room_sets (map : Grid) (r : Rect) (x y : Int)
    (h1 : r.x ≤ x) (h2 : x < r.x + r.w) (h3 : r.y ≤ y) (h4 : y < r.y + r.h)
    (hb : inBounds x y = true) : carve_room map r y x = '.' := by
  unfold carve_room
  rw [if_pos ⟨h1, h2, h3, h4, hb⟩]

theorem roomsCarved_mono {map map' : Grid} {rooms : List Rect}
    (hm : ∀ x y : Int, map y x = '.' → map' y x = '.')
    (h : RoomsCarved map rooms) : RoomsCarved map' rooms :=
  fun r hr x y h1 h2 h3 h4 hb => hm x y (h r hr x y h1 h2 h3 h4 hb)

theorem roomsCarved_append {map : Grid} {rooms : List Rect} {r : Rect}
    (h : RoomsCarved map rooms)
    (hr : ∀ x y : Int, r.x ≤ x → x < r.x + r.w → r.y ≤ y → y < r.y + r.h →
      inBounds x y = true → map y x = '.') :
    RoomsCarved map (rooms ++ [r]) := by
  intro r0 hr0 x y h1 h2 h3 h4 hb
  rcases List.mem_append.mp hr0 with hin | hin
  · exact h r0 hin x y h1 h2 h3 h4 hb
  · rcases List.mem_singleton.mp hin with rfl
    exact hr x y h1 h2 h3 h4 hb

theorem genRoomsLoop_inv (g : RngStream) (fuel : Nat) :
    ∀ (rem : Nat) (map : Grid) (rooms : List Rect) (k : Nat)
      (m' : Grid) (rooms' : List Rect) (k' : Nat),
    genRoomsLoop g fuel rem map rooms k = some (m', rooms', k') →
    (∀ r ∈ rooms, RoomOk r) → RoomsCarved map rooms →
    (∀ r ∈ rooms', RoomOk r) ∧ RoomsCarved m' rooms' := by
  induction fuel with
  | zero =>
    intro rem map rooms k m' rooms' k' h _ _
    exact absurd h (by simp [genRoomsLoop])
  | succ fuel ih =>
    intro rem map rooms k m' rooms' k' h hok hcv
    rw [genRoomsLoop] at h
    by_cases hrem : rem = 0
    · rw [if_pos hrem] at h
      simp only [Option.some.injEq, Prod.mk.injEq] at h
      obtain ⟨h1, h2, _⟩ := h
      subst h1
      subst h2
      exact ⟨hok, hcv⟩
    · rw [if_neg hrem] at h
      simp only [] at h
      set w := (rnd 3 8 g k).1 with hw
      set hh := (rnd 3 5 g (rnd 3 8 g k).2).1 with hhh
      set rx := (rnd 1 (MAP_W - w - 1) g (rnd 3 5 g (rnd 3 8 g k).2).2).1 with hrx
      set ry := (rnd 1 (MAP_H - hh - 1) g (rnd 1 (MAP_W - w - 1) g (rnd 3 5 g (rnd 3 8 g k).2).2).2).1 with hry
      have hw1 : 3 ≤ w := rnd_ge (by norm_num) g k
      have hw2 : w ≤ 8 := rnd_le (by norm_num) g k
      have hh1 : 3 ≤ hh := rnd_ge (by norm_num) g _
      have hh2 : hh ≤ 5 := rnd_le (by norm_num) g _
      have hx1 : 1 ≤ rx := rnd_ge (by rw [MAP_W]; omega) g _
      have hx2 : rx ≤ MAP_W - w - 1 := rnd_le (by rw [MAP_W]; omega) g _
      have hy1 : 1 ≤ ry := rnd_ge (by rw [MAP_H]; omega) g _
      have hy2 : ry ≤ MAP_H - hh - 1 := rnd_le (by rw [MAP_H]; omega) g _
      have hrok : RoomOk ⟨rx, ry, w, hh⟩ := by
        unfold RoomOk
        dsimp only
        refine ⟨hx1, ?_, hy1, ?_, hw1, hh1⟩ <;> omega
      split at h
      · exact ih rem map rooms _ m' rooms' k' h hok hcv
      · split at h
        · refine ih (rem - 1) _ (rooms ++ [⟨rx, ry, w, hh⟩]) _ m' rooms' k' h ?_ ?_
          · intro r0 hr0
            rcases List.mem_append.mp hr0 with hin | hin
            · exact hok r0 hin
            · rcases List.mem_singleton.mp hin with rfl
              exact hrok
          · refine roomsCarved_append (roomsCarved_mono (fun x y hf => carve_room_mono _ _ x y hf) hcv) ?_
            intro x y h1 h2 h3 h4 hb
            exact carve_room_sets _ _ x y h1 h2 h3 h4 hb
        · split at h
          · refine ih (rem - 1) _ (rooms ++ [⟨rx, ry, w, hh⟩]) _ m' rooms' k' h ?_ ?_
            · intro r0 hr0
              rcases List.mem_append.mp hr0 with hin | hin
              · exact hok r0 hin
              · rcases List.mem_singleton.mp hin with rfl
                exact hrok
            · refine roomsCarved_append ?_ ?_
              · refine roomsCarved_mono ?_ hcv
                intro x y hf
                exact carve_v_mono _ _ _ _ x y (carve_h_mono _ _ _ _ x y (carve_room_mono _ _ x y hf))
              · intro x y h1 h2 h3 h4 hb
                exact carve_v_mono _ _ _ _ x y (carve_h_mono _ _ _ _ x y (carve_room_sets _ _ x y h1 h2 h3 h4 hb))
          · refine ih (rem - 1) _ (rooms ++ [⟨rx, ry, w, hh⟩]) _ m' rooms' k' h ?_ ?_
            · intro r0 hr0
              rcases List.mem_append.mp hr0 with hin | hin
              · exact hok r0 hin
              · rcases List.mem_singleton.mp hin with rfl
                exact hrok
            · refine roomsCarved_append ?_ ?_
              · refine roomsCarved_mono ?_ hcv
                intro x y hf
                exact carve_h_mono _ _ _ _ x y (carve_v_mono _ _ _ _ x y (carve_room_mono _ _ x y hf))
              · intro x y h1 h2 h3 h4 hb
                exact carve_h_mono _ _ _ _ x y (carve_v_mono _ _ _ _ x y (carve_room_sets _ _ x y h1 h2 h3 h4 hb))

theorem generate_rooms_ok (g : RngStream) (fuel k : Nat) (map : Grid)
    (rooms : List Rect) (k' : Nat)
    (h : generate_map_basic g fuel k = some (map, rooms, k')) :
    (∀ r ∈ rooms, RoomOk r) ∧ RoomsCarved map rooms := by
  simp only [generate_map_basic] at h
  cases hg : genRoomsLoop g fuel (rnd 3 6 g k).1.toNat create_empty_map [] (rnd 3 6 g k).2 with
  | none => rw [hg] at h; exact absurd h (by simp)
  | some res =>
    obtain ⟨m, rooms0, k2⟩ := res
    rw [hg] at h
    simp only [Option.some.injEq, Prod.mk.injEq] at h
    obtain ⟨hmap, hrooms, _⟩ := h
    obtain ⟨hok, hcv⟩ := genRoomsLoop_inv g fuel _ create_empty_map [] _ m rooms0 k2 hg
      (by simp) (by intro r hr; simp at hr)
    subst hrooms
    refine ⟨hok, ?_⟩
    subst hmap
    by_cases hany : anyFloor m = true
    · rwa [if_pos hany]
    · rw [if_neg hany]
      exact roomsCarved_mono (fun x y hf => interior_floor_mono m x y hf) hcv

theorem floorTiles_mem (map : Grid) (c : Cell) (h : c ∈ floorTiles map) :
    inBounds c.1 c.2 = true ∧ map c.2 c.1 = '.' := by
  simp only [floorTiles, List.mem_flatMap, List.mem_filterMap, List.mem_range] at h
  obtain ⟨y, hy, x, hx, hc⟩ := h
  have hx' : ∃ a : Nat, a < 20 ∧ x = (a : Int) := by simpa using hx
  obtain ⟨a, ha, rfl⟩ := hx'
  by_cases hf : map (y : Int) (a : Int) = '.'
  · rw [if_pos hf] at hc
    injection hc with hceq
    subst hceq
    refine ⟨?_, hf⟩
    show inBounds (a : Int) (y : Int) = true
    simp only [inBounds, MAP_W, MAP_H, Bool.and_eq_true, decide_eq_true_eq]
    omega
  · rw [if_neg hf] at hc
    cases hc

theorem random_floor_tile_spec (map : Grid) (g : RngStream) (k : Nat)
    (hne : floorTiles map ≠ []) :
    (random_floor_tile map g k).1 ∈ floorTiles map := by
  unfold random_floor_tile
  simp only [if_neg hne]
  have hlen : 0 < (floorTiles map).length := List.length_pos.mpr hne
  have hbd : (0 : Int) ≤ ((floorTiles map).length : Int) - 1 := by
    omega
  have hge := rnd_ge hbd g k
  have hle := rnd_le hbd g k
  have hidx : (rnd 0 (((floorTiles map).length : Int) - 1) g k).1.toNat <
      (floorTiles map).length := by
    omega
  rw [List.getD_eq_getElem?_getD, List.getElem?_eq_getElem hidx]
  simp

/-- Invariant carried by the enemy-placement loop. -/
def EnemiesOk (map : Grid) (px py : Int) (es : List Enemy) : Prop :=
  (∀ e ∈ es, inBounds e.x e.y = true ∧ map e.y e.x = '.' ∧ ¬(e.x = px ∧ e.y = py)) ∧
  es.Pairwise (fun a b => ¬(a.x = b.x ∧ a.y = b.y))

theorem placeEnemiesLoop_inv (g : RngStream) (map : Grid) (px py hpMin hpMax : Int)
    (fuel : Nat) :
    ∀ (rem : Nat) (acc : List Enemy) (k : Nat) (es' : List Enemy) (k' : Nat),
    placeEnemiesLoop g map px py hpMin hpMax fuel rem acc k = some (es', k') →
    floorTiles map ≠ [] → EnemiesOk map px py acc → EnemiesOk map px py es' := by
  induction fuel with
  | zero =>
    intro rem acc k es' k' h _ _
    exact absurd h (by simp [placeEnemiesLoop])
  | succ fuel ih =>
    intro rem acc k es' k' h hfl hacc
    rw [placeEnemiesLoop] at h
    by_cases hrem : rem = 0
    · rw [if_pos hrem] at h
      simp only [Option.some.injEq, Prod.mk.injEq] at h
      obtain ⟨h1, _⟩ := h
      subst h1
      exact hacc
    · rw [if_neg hrem] at h
      simp only [] at h
      have hmem := random_floor_tile_spec map g k hfl
      obtain ⟨hb, hf⟩ := floorTiles_mem map _ hmem
      split at h
      · exact ih rem acc _ es' k' h hfl hacc
      · split at h
        · exact ih rem acc _ es' k' h hfl hacc
        · refine ih (rem - 1) _ _ es' k' h hfl ?_
          constructor
          · intro e he
            rcases List.mem_append.mp he with hin | hin
            · exact hacc.1 e hin
            · rcases List.mem_singleton.mp hin with rfl
              refine ⟨hb, hf, ?_⟩
              intro hc
              rename_i hply _
              exact hply ⟨hc.1, hc.2⟩
          · rw [List.pairwise_append]
            refine ⟨hacc.2, List.pairwise_singleton _ _, ?_⟩
            intro a ha b hb'
            rcases List.mem_singleton.mp hb' with rfl
            rename_i hclash
            intro hc
            dsimp only at hc
            apply hclash
            refine List.any_eq_true.mpr ⟨a, ha, ?_⟩
            simp only [Bool.and_eq_true, decide_eq_true_eq]
            exact ⟨hc.1, hc.2⟩

/-- Invariant carried by the item-placement loop. -/
def ItemsOk (map : Grid) (px py : Int) (enemies : List Enemy) (its : List Item) : Prop :=
  (∀ it ∈ its, inBounds it.x it.y = true ∧ map it.y it.x = '.' ∧
    ¬(it.x = px ∧ it.y = py) ∧ ∀ e ∈ enemies, ¬(it.x = e.x ∧ it.y = e.y)) ∧
  its.Pairwise (fun a b => ¬(a.x = b.x ∧ a.y = b.y))

theorem placeItemsLoop_inv (g : RngStream) (map : Grid) (px py : Int)
    (enemies : List Enemy) (fuel : Nat) :
    ∀ (rem : Nat) (acc : List Item) (k : Nat) (its' : List Item) (k' : Nat),
    placeItemsLoop g map px py enemies fuel rem acc k = some (its', k') →
    floorTiles map ≠ [] → ItemsOk map px py enemies acc →
    ItemsOk map px py enemies its' := by
  induction fuel with
  | zero =>
    intro rem acc k its' k' h _ _
    exact absurd h (by simp [placeItemsLoop])
  | succ fuel ih =>
    intro rem acc k its' k' h hfl hacc
    rw [placeItemsLoop] at h
    by_cases hrem : rem = 0
    · rw [if_pos hrem] at h
      simp only [Option.some.injEq, Prod.mk.injEq] at h
      obtain ⟨h1, _⟩ := h
      subst h1
      exact hacc
    · rw [if_neg hrem] at h
      simp only [] at h
      have hmem := random_floor_tile_spec map g k hfl
      obtain ⟨hb, hf⟩ := floorTiles_mem map _ hmem
      split at h
      · exact ih rem acc _ its' k' h hfl hacc
      · split at h
        · exact ih rem acc _ its' k' h hfl hacc
        · refine ih (rem - 1) _ _ its' k' h hfl ?_
          rename_i hply hclash
          rw [Bool.or_eq_true, not_or] at hclash
          obtain ⟨hclashI, hclashE⟩ := hclash
          constructor
          · intro it hit
            rcases List.mem_append.mp hit with hin | hin
            · exact hacc.1 it hin
            · rcases List.mem_singleton.mp hin with rfl
              refine ⟨hb, hf, fun hc => hply ⟨hc.1, hc.2⟩, ?_⟩
              intro e he hc
              apply hclashE
              refine List.any_eq_true.mpr ⟨e, he, ?_⟩
              simp only [Bool.and_eq_true, decide_eq_true_eq]
              dsimp only at hc
              exact ⟨hc.1.symm, hc.2.symm⟩
          · rw [List.pairwise_append]
            refine ⟨hacc.2, List.pairwise_singleton _ _, ?_⟩
            intro a ha b hb'
            rcases List.mem_singleton.mp hb' with rfl
            intro hc
            dsimp only at hc
            apply hclashI
            refine List.any_eq_true.mpr ⟨a, ha, ?_⟩
            simp only [Bool.and_eq_true, decide_eq_true_eq]
            exact ⟨hc.1, hc.2⟩

theorem floorTiles_mem_of (m : Grid) (x y : Int) (hb : inBounds x y = true)
    (hf : m y x = '.') : (x, y) ∈ floorTiles m := by
  simp only [inBounds, Bool.and_eq_true, decide_eq_true_eq, MAP_W, MAP_H] at hb
  obtain ⟨⟨⟨hx0, hx1⟩, hy0⟩, hy1⟩ := hb
  have hy' : y.toNat < 10 := by omega
  have hx' : x.toNat < 20 := by omega
  have hinner : (x, y) ∈ (List.range 20).filterMap fun xx : Nat =>
      if m (y.toNat : Int) (xx : Int) = '.' then some ((xx : Int), ((y.toNat : Nat) : Int))
      else none := by
    refine List.mem_filterMap.mpr ⟨x.toNat, List.mem_range.mpr hx', ?_⟩
    rw [Int.toNat_of_nonneg hx0, Int.toNat_of_nonneg hy0, if_pos hf]
  exact List.mem_flatMap.mpr ⟨y.toNat, List.mem_range.mpr hy', hinner⟩

theorem floorTiles_ne_nil (m : Grid) (x y : Int) (hb : inBounds x y = true)
    (hf : m y x = '.') : floorTiles m ≠ [] :=
  List.ne_nil_of_mem (floorTiles_mem_of m x y hb hf)

/-- Full specification of `regenerate_map`'s placement, shared by several
    claims. -/
theorem regenerate_spec (g : RngStream) (diff : Difficulty) (fuel k : Nat)
    (p : Placement) (k' : Nat) (h : regenerate_map g diff fuel k = some (p, k')) :
    (inBounds p.playerX p.playerY = true ∧ p.map p.playerY p.playerX = '.') ∧
    (∀ e ∈ p.enemies, inBounds e.x e.y = true ∧ p.map e.y e.x = '.') ∧
    (∀ it ∈ p.items, inBounds it.x it.y = true ∧ p.map it.y it.x = '.') ∧
    (∀ e ∈ p.enemies, (e.x, e.y) ≠ (p.playerX, p.playerY)) ∧
    (∀ it ∈ p.items, (it.x, it.y) ≠ (p.playerX, p.playerY)) ∧
    (∀ it ∈ p.items, ∀ e ∈ p.enemies, (it.x, it.y) ≠ (e.x, e.y)) ∧
    p.enemies.Pairwise (fun a b => (a.x, a.y) ≠ (b.x, b.y)) ∧
    p.items.Pairwise (fun a b => (a.x, a.y) ≠ (b.x, b.y)) := by
  unfold regenerate_map at h
  cases hg : generate_map_basic g fuel k with
  | none => rw [hg] at h; exact absurd h (by simp)
  | some res =>
    obtain ⟨m, rooms, k1⟩ := res
    rw [hg] at h
    obtain ⟨hok, hcv⟩ := generate_rooms_ok g fuel k m rooms k1 hg
    obtain ⟨fx, fy, hfb, hff⟩ := generate_map_has_floor g fuel k m rooms k1 hg
    have hne : floorTiles m ≠ [] := floorTiles_ne_nil m fx fy hfb hff
    have main : ∀ (px py : Int) (k2 : Nat),
        inBounds px py = true → m py px = '.' →
        (match placeEnemiesLoop g m px py (diffConfigs diff).enemyHpMin
            (diffConfigs diff).enemyHpMax fuel
            (rnd (diffConfigs diff).enemyMin (diffConfigs diff).enemyMax g k2).1.toNat []
            (rnd (diffConfigs diff).enemyMin (diffConfigs diff).enemyMax g k2).2 with
          | none => none
          | some (enemies, k4) =>
            match placeItemsLoop g m px py enemies fuel
                (rnd (diffConfigs diff).potionMin (diffConfigs diff).potionMax g k4).1.toNat []
                (rnd (diffConfigs diff).potionMin (diffConfigs diff).potionMax g k4).2 with
            | none => none
            | some (items, k6) =>
              some ({ map := m, rooms := rooms, playerX := px, playerY := py,
                      enemies := enemies, items := items, playerMaxHP := 20, playerAttack := 4,
                      enemyAttackDamage := (rnd (diffConfigs diff).enemyAtkMin
                        (diffConfigs diff).enemyAtkMax g k6).1,
                      potionHeal := 0, score := 0 },
                    (rnd (diffConfigs diff).enemyAtkMin (diffConfigs diff).enemyAtkMax g k6).2)) =
          some (p, k') →
        (inBounds p.playerX p.playerY = true ∧ p.map p.playerY p.playerX = '.') ∧
        (∀ e ∈ p.enemies, inBounds e.x e.y = true ∧ p.map e.y e.x = '.') ∧
        (∀ it ∈ p.items, inBounds it.x it.y = true ∧ p.map it.y it.x = '.') ∧
        (∀ e ∈ p.enemies, (e.x, e.y) ≠ (p.playerX, p.playerY)) ∧
        (∀ it ∈ p.items, (it.x, it.y) ≠ (p.playerX, p.playerY)) ∧
        (∀ it ∈ p.items, ∀ e ∈ p.enemies, (it.x, it.y) ≠ (e.x, e.y)) ∧
        p.enemies.Pairwise (fun a b => (a.x, a.y) ≠ (b.x, b.y)) ∧
        p.items.Pairwise (fun a b => (a.x, a.y) ≠ (b.x, b.y)) := by
      intro px py k2 hpb hpf hmain
      split at hmain
      · exact absurd hmain (by simp)
      · rename_i enemies k4 hpe
        have hEok : EnemiesOk m px py enemies :=
          placeEnemiesLoop_inv g m px py _ _ fuel _ [] _ enemies k4 hpe hne
            ⟨by simp, List.Pairwise.nil⟩
        split at hmain
        · exact absurd hmain (by simp)
        · rename_i items k6 hpi
          have hIok : ItemsOk m px py enemies items :=
            placeItemsLoop_inv g m px py enemies fuel _ [] _ items k6 hpi hne
              ⟨by simp, List.Pairwise.nil⟩
          simp only [Option.some.injEq, Prod.mk.injEq] at hmain
          obtain ⟨hp, _⟩ := hmain
          subst hp
          refine ⟨⟨hpb, hpf⟩, ?_, ?_, ?_, ?_, ?_, ?_, ?_⟩
          · intro e he
            exact ⟨(hEok.1 e he).1, (hEok.1 e he).2.1⟩
          · intro it hit
            exact ⟨(hIok.1 it hit).1, (hIok.1 it hit).2.1⟩
          · intro e he hc
            exact (hEok.1 e he).2.2 ⟨congrArg Prod.fst hc, congrArg Prod.snd hc⟩
          · intro it hit hc
            exact (hIok.1 it hit).2.2.1 ⟨congrArg Prod.fst hc, congrArg Prod.snd hc⟩
          · intro it hit e he hc
            exact (hIok.1 it hit).2.2.2 e he ⟨congrArg Prod.fst hc, congrArg Prod.snd hc⟩
          · refine List.Pairwise.imp ?_ hEok.2
            intro a b hab hc
            exact hab ⟨congrArg Prod.fst hc, congrArg Prod.snd hc⟩
          · refine List.Pairwise.imp ?_ hIok.2
            intro a b hab hc
            exact hab ⟨congrArg Prod.fst hc, congrArg Prod.snd hc⟩
    cases rooms with
    | nil =>
      have hmem := random_floor_tile_spec m g k1 hne
      obtain ⟨hb0, hf0⟩ := floorTiles_mem m _ hmem
      exact main (random_floor_tile m g k1).1.1 (random_floor_tile m g k1).1.2
        (random_floor_tile m g k1).2 hb0 hf0 h
    | cons r0 rs =>
      obtain ⟨h1, h2, h3, h4, h5, h6⟩ := hok r0 (List.mem_cons_self _ _)
      have hcb : inBounds r0.centerX r0.centerY = true := by
        simp only [inBounds, Bool.and_eq_true, decide_eq_true_eq]
        unfold Rect.centerX Rect.centerY
        simp only [MAP_W, MAP_H] at h2 h4 ⊢
        omega
      have hcf : m r0.centerY r0.centerX = '.' := by
        refine hcv r0 (List.mem_cons_self _ _) r0.centerX r0.centerY ?_ ?_ ?_ ?_ hcb
        · unfold Rect.centerX; omega
        · unfold Rect.centerX; omega
        · unfold Rect.centerY; omega
        · unfold Rect.centerY; omega
      exact main r0.centerX r0.centerY k1 hcb hcf h

/-- C7: in every Session produced by `regenerate_map`, whatever the RNG stream,
    the player's cell, every agent's cell and every pickup's cell are pairwise
    distinct, and all of them are in-bounds floor cells of the generated grid. -/
theorem C7_placement_distinct_floor (g : RngStream) (diff : Difficulty) (fuel k : Nat)
    (p : Placement) (k' : Nat) (h : regenerate_map g diff fuel k = some (p, k')) :
    (inBounds p.playerX p.playerY = true ∧ p.map p.playerY p.playerX = '.') ∧
    (∀ e ∈ p.enemies, inBounds e.x e.y = true ∧ p.map e.y e.x = '.') ∧
    (∀ it ∈ p.items, inBounds it.x it.y = true ∧ p.map it.y it.x = '.') ∧
    (∀ e ∈ p.enemies, (e.x, e.y) ≠ (p.playerX, p.playerY)) ∧
    (∀ it ∈ p.items, (it.x, it.y) ≠ (p.playerX, p.playerY)) ∧
    (∀ it ∈ p.items, ∀ e ∈ p.enemies, (it.x, it.y) ≠ (e.x, e.y)) ∧
    p.enemies.Pairwise (fun a b => (a.x, a.y) ≠ (b.x, b.y)) ∧
    p.items.Pairwise (fun a b => (a.x, a.y) ≠ (b.x, b.y)) :=
  regenerate_spec g diff fuel k p k' h

/-- Witness stream extending `gW` with placement draws: three enemies on
    distinct tiles, three potions on distinct tiles. -/
def gW7 : RngStream := fun k =>
  [0, 0, 0, 0, 0, 0, 0, 4, 0, 0, 0, 0, 8, 0, 0, 0, 0, 0, 1, 0, 2, 0, 0, 3, 4, 5, 0].getD k 0

/-- The concrete placement produced by the witness stream. -/
def pW7 : Placement :=
  ((regenerate_map gW7 .NORMAL 40 0).getD
    ({ map := create_empty_map, rooms := [], playerX := 0, playerY := 0, enemies := [],
       items := [], playerMaxHP := 0, playerAttack := 0, enemyAttackDamage := 0,
       potionHeal := 0, score := 0 }, 0)).1

theorem C7_placement_distinct_floor_witness :
    (inBounds pW7.playerX pW7.playerY = true ∧ pW7.map pW7.playerY pW7.playerX = '.') ∧
    (∀ e ∈ pW7.enemies, inBounds e.x e.y = true ∧ pW7.map e.y e.x = '.') ∧
    (∀ it ∈ pW7.items, inBounds it.x it.y = true ∧ pW7.map it.y it.x = '.') ∧
    (∀ e ∈ pW7.enemies, (e.x, e.y) ≠ (pW7.playerX, pW7.playerY)) ∧
    (∀ it ∈ pW7.items, (it.x, it.y) ≠ (pW7.playerX, pW7.playerY)) ∧
    (∀ it ∈ pW7.items, ∀ e ∈ pW7.enemies, (it.x, it.y) ≠ (e.x, e.y)) ∧
    pW7.enemies.Pairwise (fun a b => (a.x, a.y) ≠ (b.x, b.y)) ∧
    pW7.items.Pairwise (fun a b => (a.x, a.y) ≠ (b.x, b.y)) :=
  C7_placement_distinct_floor gW7 .NORMAL 40 0 pW7 27 rfl

/-! ### BFS correctness: graph-theoretic groundwork -/

/-- Bounds check on a cell. -/
def inB (c : Cell) : Bool := inBounds c.1 c.2

/-- 4-directional adjacency, in the exploration order of `dirs`. -/
def Adj (a b : Cell) : Prop := ∃ d ∈ dirs, b = (a.1 + d.1, a.2 + d.2)

/-- Paths from `s`: every cell after `s` is in-bounds and unblocked, successive
    cells 4-adjacent.  `PathTo blk s c n` means a path of `n` steps ends at `c`. -/
inductive PathTo (blk : Cell → Bool) (s : Cell) : Cell → Nat → Prop
  | nil : PathTo blk s s 0
  | cons {c c' : Cell} {n : Nat} (h : PathTo blk s c n) (ha : Adj c c')
      (hb : inB c' = true) (hk : blk c' = false) : PathTo blk s c' (n + 1)

/-- `d` is the length of a shortest path from `s` to `c`. -/
def IsDist (blk : Cell → Bool) (s c : Cell) (d : Nat) : Prop :=
  PathTo blk s c d ∧ ∀ m, PathTo blk s c m → d ≤ m

theorem exists_isDist {blk : Cell → Bool} {s c : Cell} {n : Nat}
    (h : PathTo blk s c n) : ∃ d, IsDist blk s c d := by
  have hne : {m : Nat | PathTo blk s c m}.Nonempty := ⟨n, h⟩
  refine ⟨sInf {m : Nat | PathTo blk s c m}, Nat.sInf_mem hne, ?_⟩
  intro m hm
  exact Nat.sInf_le hm

theorem isDist_unique {blk : Cell → Bool} {s c : Cell} {d d' : Nat}
    (h : IsDist blk s c d) (h' : IsDist blk s c d') : d = d' :=
  Nat.le_antisymm (h.2 d' h'.1) (h'.2 d h.1)

theorem pathTo_zero {blk : Cell → Bool} {s c : Cell} (h : PathTo blk s c 0) : c = s := by
  cases h
  rfl

theorem isDist_self (blk : Cell → Bool) (s : Cell) : IsDist blk s s 0 :=
  ⟨PathTo.nil, fun m _ => Nat.zero_le m⟩

theorem isDist_succ_pred {blk : Cell → Bool} {s c : Cell} {n : Nat}
    (h : IsDist blk s c (n + 1)) :
    ∃ y, IsDist blk s y n ∧ Adj y c ∧ inB c = true ∧ blk c = false := by
  obtain ⟨hp, hmin⟩ := h
  cases hp with
  | cons hy ha hb hk =>
    rename_i y
    refine ⟨y, ⟨hy, ?_⟩, ha, hb, hk⟩
    intro m hm
    have := hmin (m + 1) (PathTo.cons hm ha hb hk)
    omega

/-- The whole board, as a finite set of cells. -/
def allCells : Finset Cell := Finset.Icc (0 : Int) 19 ×ˢ Finset.Icc (0 : Int) 9

theorem mem_allCells_of_inB {c : Cell} (h : inB c = true) : c ∈ allCells := by
  simp only [inB, inBounds, Bool.and_eq_true, decide_eq_true_eq, MAP_W, MAP_H] at h
  simp only [allCells, Finset.mem_product, Finset.mem_Icc]
  omega

theorem allCells_card : allCells.card = 200 := by
  simp only [allCells, Finset.card_product, Int.card_Icc]
  rfl

/-- Any duplicate-free list of cells that are each `s` or in-bounds has at most
    201 entries. -/
theorem vis_length_le {s : Cell} {l : List Cell} (hd : l.Nodup)
    (hb : ∀ c ∈ l, c = s ∨ inB c = true) : l.length ≤ 201 := by
  have hsub : l.toFinset ⊆ insert s allCells := by
    intro c hc
    rcases hb c (List.mem_toFinset.mp hc) with rfl | hB
    · exact Finset.mem_insert_self c _
    · exact Finset.mem_insert_of_mem (mem_allCells_of_inB hB)
  have hcard := Finset.card_le_card hsub
  rw [List.toFinset_card_of_nodup hd] at hcard
  have := Finset.card_insert_le s allCells
  rw [allCells_card] at this
  omega

/-- Queue-independent part of the BFS invariant: visited cells carry optimal
    distances (ghost map `δ`) and well-formed parent pointers. -/
structure InvCore (blk : Cell → Bool) (s : Cell) (δ : Cell → Nat) (st : BfsSt) : Prop where
  visNodup : st.vis.Nodup
  visOk : ∀ c ∈ st.vis, c = s ∨ (inB c = true ∧ blk c = false)
  sVis : s ∈ st.vis
  ds0 : δ s = 0
  visDist : ∀ c ∈ st.vis, IsDist blk s c (δ c)
  parentVis : ∀ c p, st.parent c = some p →
    c ∈ st.vis ∧ c ≠ s ∧ p ∈ st.vis ∧ Adj p c ∧ δ c = δ p + 1
  parentSome : ∀ c ∈ st.vis, c ≠ s → ∃ p, st.parent c = some p

/-- Full BFS loop invariant. -/
structure BfsInv (blk : Cell → Bool) (s t : Cell) (δ : Cell → Nat) (st : BfsSt)
    extends InvCore blk s δ st : Prop where
  qSub : ∀ c ∈ st.queue, c ∈ st.vis
  qNodup : st.queue.Nodup
  qMono : st.queue.Pairwise (fun a b => δ a ≤ δ b ∧ δ b ≤ δ a + 1)
  closed : ∀ c ∈ st.vis, c ∉ st.queue →
    ∀ c', Adj c c' → inB c' = true → blk c' = false → c' ∈ st.vis
  tInQ : t ∈ st.vis → t ∈ st.queue

/-- Invariant holding midway through expanding the popped cell `u`: the queue is
    `rest` plus freshly pushed cells `news`, all at distance `δ u + 1`. -/
structure MidInv (blk : Cell → Bool) (s u : Cell) (δu : Nat) (rest vis0 : List Cell)
    (δ : Cell → Nat) (news : List Cell) (st : BfsSt)
    extends InvCore blk s δ st : Prop where
  uVis : u ∈ st.vis
  du_eq : δ u = δu
  qEq : st.queue = rest ++ news
  newsOk : ∀ c ∈ news, δ c = δu + 1
  visEq : ∀ c, c ∈ st.vis ↔ c ∈ vis0 ∨ c ∈ news
  newsFresh : ∀ c ∈ news, c ∉ vis0
  qSub : ∀ c ∈ st.queue, c ∈ st.vis
  qNodup : st.queue.Nodup
  restBound : ∀ c ∈ rest, δu ≤ δ c ∧ δ c ≤ δu + 1
  restPair : rest.Pairwise (fun a b => δ a ≤ δ b ∧ δ b ≤ δ a + 1)
  closedM : ∀ c ∈ st.vis, c ∉ st.queue → c ≠ u →
    ∀ c', Adj c c' → inB c' = true → blk c' = false → c' ∈ st.vis

/-- During expansion, any cell whose optimal distance is at most `δ u` has
    already been visited. -/
theorem mid_low_dist_visited {blk : Cell → Bool} {s u : Cell} {δu : Nat}
    {rest vis0 : List Cell} {δ : Cell → Nat} {news : List Cell} {st : BfsSt}
    (inv : MidInv blk s u δu rest vis0 δ news st) :
    ∀ n, ∀ c, IsDist blk s c n → n ≤ δu → c ∈ st.vis := by
  intro n
  induction n using Nat.strong_induction_on with
  | _ n ih =>
    intro c hc hle
    match n, hc, hle with
    | 0, hc, _ =>
      have := pathTo_zero hc.1
      subst this
      exact inv.sVis
    | m + 1, hc, hle =>
      obtain ⟨y, hy, hadj, hbc, hkc⟩ := isDist_succ_pred hc
      have hyvis : y ∈ st.vis := ih m (by omega) y hy (by omega)
      have hdy : δ y = m := isDist_unique (inv.visDist y hyvis) hy
      by_cases hyq : y ∈ st.queue
      · exfalso
        rw [inv.qEq] at hyq
        rcases List.mem_append.mp hyq with hin | hin
        · have := inv.restBound y hin
          omega
        · have := inv.newsOk y hin
          omega
      · by_cases hyu : y = u
        · exfalso
          subst hyu
          have := inv.du_eq
          omega
        · exact inv.closedM y hyvis hyq hyu c hadj hbc hkc

/-- One candidate push preserves the mid-expansion invariant; if the neighbor is
    admissible it is visited afterwards. -/
theorem pushNeighbor_mid {blk : Cell → Bool} {s u : Cell} {δu : Nat}
    {rest vis0 : List Cell} {δ : Cell → Nat} {news : List Cell} {st : BfsSt}
    (inv : MidInv blk s u δu rest vis0 δ news st) (d : Cell) (hd : d ∈ dirs)
    (n : Cell) (hn : n = (u.1 + d.1, u.2 + d.2)) :
    ∃ δ' news',
      MidInv blk s u δu rest vis0 δ' news' (pushNeighbor blk u st d) ∧
      (∀ c ∈ st.vis, δ' c = δ c) ∧
      (∀ c ∈ news, c ∈ news') ∧
      (inB n = true → blk n = false → n ∈ (pushNeighbor blk u st d).vis) ∧
      (pushNeighbor blk u st d).vis.length + st.queue.length =
        st.vis.length + (pushNeighbor blk u st d).queue.length := by
  have hpush : pushNeighbor blk u st d =
      (if inB n = false then st
       else if n ∈ st.vis then st
       else if blk n = true then st
       else { vis := n :: st.vis, parent := Function.update st.parent n (some u),
              queue := st.queue ++ [n] }) := by
    subst hn
    rfl
  have hvis0sub : ∀ c ∈ vis0, c ∈ st.vis := fun c hc => (inv.visEq c).mpr (Or.inl hc)
  by_cases hB : inB n = true
  · by_cases hV : n ∈ st.vis
    · rw [hpush, if_neg (by rw [hB]; simp), if_pos hV]
      exact ⟨δ, news, inv, fun _ _ => rfl, fun _ h => h, fun _ _ => hV, rfl⟩
    · by_cases hK : blk n = true
      · rw [hpush, if_neg (by rw [hB]; simp), if_neg hV, if_pos hK]
        refine ⟨δ, news, inv, fun _ _ => rfl, fun _ h => h, fun _ hk => ?_, rfl⟩
        rw [hK] at hk
        cases hk
      · have hK' : blk n = false := by
          rw [Bool.not_eq_true] at hK
          exact hK
        rw [hpush, if_neg (by rw [hB]; simp), if_neg hV, if_neg (by rw [hK']; simp)]
        have hns : n ≠ s := fun h => hV (h ▸ inv.sVis)
        have hnu : n ≠ u := fun h => hV (h ▸ inv.uVis)
        have hadj : Adj u n := ⟨d, hd, hn⟩
        have hpu : PathTo blk s u δu := by
          have := (inv.visDist u inv.uVis).1
          rwa [inv.du_eq] at this
        have hpn : PathTo blk s n (δu + 1) := PathTo.cons hpu hadj hB hK'
        have hdn : IsDist blk s n (δu + 1) := by
          refine ⟨hpn, ?_⟩
          intro m hm
          by_contra hlt
          push_neg at hlt
          obtain ⟨dn, hdn⟩ := exists_isDist hm
          have hdle : dn ≤ δu := by
            have := hdn.2 m hm
            omega
          exact hV (mid_low_dist_visited inv dn n hdn hdle)
        refine ⟨Function.update δ n (δu + 1), news ++ [n], ?_, ?_, ?_, ?_, ?_⟩
        · have agree : ∀ c, c ≠ n → Function.update δ n (δu + 1) c = δ c := by
            intro c hc
            exact Function.update_noteq hc _ _
          have agreeV : ∀ c ∈ st.vis, Function.update δ n (δu + 1) c = δ c :=
            fun c hc => agree c (fun h => hV (h ▸ hc))
          have hδn : Function.update δ n (δu + 1) n = δu + 1 := Function.update_same _ _ _
          have hdistn : IsDist blk s n (Function.update δ n (δu + 1) n) := by
            rw [hδn]
            exact hdn
          refine
            { visNodup := List.nodup_cons.mpr ⟨hV, inv.visNodup⟩
              visOk := ?_
              sVis := List.mem_cons_of_mem _ inv.sVis
              ds0 := by rw [agree s (Ne.symm hns)]; exact inv.ds0
              visDist := ?_
              parentVis := ?_
              parentSome := ?_
              uVis := List.mem_cons_of_mem _ inv.uVis
              du_eq := by rw [agree u (Ne.symm hnu)]; exact inv.du_eq
              qEq := by rw [inv.qEq, List.append_assoc]
              newsOk := ?_
              visEq := ?_
              newsFresh := ?_
              qSub := ?_
              qNodup := ?_
              restBound := ?_
              restPair := ?_
              closedM := ?_ }
          · intro c hc
            rcases List.mem_cons.mp hc with rfl | hold
            · exact Or.inr ⟨hB, hK'⟩
            · exact inv.visOk c hold
          · intro c hc
            rcases List.mem_cons.mp hc with rfl | hold
            · exact hdistn
            · rw [agreeV c hold]
              exact inv.visDist c hold
          · intro c p hp
            dsimp only at hp
            by_cases hcn : c = n
            · subst hcn
              rw [Function.update_same] at hp
              have hpu' : p = u := by
                injection hp with h
                exact h.symm
              refine ⟨List.mem_cons_self _ _, hns, ?_, ?_, ?_⟩
              · rw [hpu']
                exact List.mem_cons_of_mem _ inv.uVis
              · rw [hpu']
                exact hadj
              · rw [hpu', hδn, agree u (Ne.symm hnu), inv.du_eq]
            · rw [Function.update_noteq hcn] at hp
              obtain ⟨h1, h2, h3, h4, h5⟩ := inv.parentVis c p hp
              refine ⟨List.mem_cons_of_mem _ h1, h2, List.mem_cons_of_mem _ h3, h4, ?_⟩
              rw [agree c hcn, agreeV p h3]
              exact h5
          · intro c hc hcs
            rcases List.mem_cons.mp hc with rfl | hold
            · exact ⟨u, Function.update_same _ _ _⟩
            · obtain ⟨p, hp⟩ := inv.parentSome c hold hcs
              refine ⟨p, ?_⟩
              dsimp only
              rw [Function.update_noteq (fun h : c = n => hV (h ▸ hold))]
              exact hp
          · intro c hc
            rcases List.mem_append.mp hc with hold | hnew
            · rw [agreeV c (inv.qSub c (by rw [inv.qEq]; exact List.mem_append_right _ hold))]
              exact inv.newsOk c hold
            · rcases List.mem_singleton.mp hnew with rfl
              exact hδn
          · intro c
            constructor
            · intro hc
              rcases List.mem_cons.mp hc with rfl | hold
              · exact Or.inr (List.mem_append_right _ (List.mem_singleton.mpr rfl))
              · rcases (inv.visEq c).mp hold with h0 | hn0
                · exact Or.inl h0
                · exact Or.inr (List.mem_append_left _ hn0)
            · intro hc
              rcases hc with h0 | hn0
              · exact List.mem_cons_of_mem _ (hvis0sub c h0)
              · rcases List.mem_append.mp hn0 with hold | hone
                · exact List.mem_cons_of_mem _ ((inv.visEq c).mpr (Or.inr hold))
                · rcases List.mem_singleton.mp hone with rfl
                  exact List.mem_cons_self _ _
          · intro c hc
            rcases List.mem_append.mp hc with hold | hone
            · exact inv.newsFresh c hold
            · rcases List.mem_singleton.mp hone with rfl
              exact fun h => hV (hvis0sub _ h)
          · intro c hc
            rcases List.mem_append.mp hc with hold | hone
            · exact List.mem_cons_of_mem _ (inv.qSub c hold)
            · rcases List.mem_singleton.mp hone with rfl
              exact List.mem_cons_self _ _
          · rw [List.nodup_append]
            refine ⟨inv.qNodup, List.nodup_singleton _, ?_⟩
            intro a ha hb
            rcases List.mem_singleton.mp hb with rfl
            exact hV (inv.qSub a ha)
          · intro c hc
            have hcv : c ∈ st.vis :=
              inv.qSub c (by rw [inv.qEq]; exact List.mem_append_left _ hc)
            rw [agreeV c hcv]
            exact inv.restBound c hc
          · refine List.Pairwise.imp_of_mem ?_ inv.restPair
            intro a b ha hb hab
            have hav : a ∈ st.vis :=
              inv.qSub a (by rw [inv.qEq]; exact List.mem_append_left _ ha)
            have hbv : b ∈ st.vis :=
              inv.qSub b (by rw [inv.qEq]; exact List.mem_append_left _ hb)
            rw [agreeV a hav, agreeV b hbv]
            exact hab
          · intro c hc hcq hcu c' ha hb' hk'
            have hcn : c ≠ n := by
              intro h
              subst h
              exact hcq (List.mem_append_right _ (List.mem_singleton.mpr rfl))
            have hold : c ∈ st.vis := by
              rcases List.mem_cons.mp hc with h | h
              · exact absurd h hcn
              · exact h
            have hcq0 : c ∉ st.queue := fun h => hcq (List.mem_append_left _ h)
            exact List.mem_cons_of_mem _ (inv.closedM c hold hcq0 hcu c' ha hb' hk')
        · intro c hc
          exact Function.update_noteq (fun h : c = n => hV (h ▸ hc)) _ _
        · intro c hc
          exact List.mem_append_left _ hc
        · intro _ _
          exact List.mem_cons_self _ _
        · dsimp only
          simp only [List.length_cons, List.length_append, List.length_singleton,
            List.length_nil]
          omega
  · rw [Bool.not_eq_true] at hB
    rw [hpush, if_pos hB]
    refine ⟨δ, news, inv, fun _ _ => rfl, fun _ h => h, fun hb _ => ?_, rfl⟩
    rw [hB] at hb
    cases hb

theorem pushNeighbor_vis_mono (blk : Cell → Bool) (u : Cell) (st : BfsSt) (d : Cell)
    {c : Cell} (hc : c ∈ st.vis) : c ∈ (pushNeighbor blk u st d).vis := by
  unfold pushNeighbor
  simp only []
  split
  · exact hc
  · split
    · exact hc
    · split
      · exact hc
      · exact List.mem_cons_of_mem _ hc

theorem foldl_push_vis_mono (blk : Cell → Bool) (u : Cell) :
    ∀ (ds : List Cell) (st : BfsSt) (c : Cell), c ∈ st.vis →
      c ∈ (ds.foldl (pushNeighbor blk u) st).vis := by
  intro ds
  induction ds with
  | nil => intro st c hc; exact hc
  | cons d ds ih =>
    intro st c hc
    exact ih _ c (pushNeighbor_vis_mono blk u st d hc)

/-- Expanding a whole direction list preserves the mid invariant and visits
    every admissible neighbor of `u` named by the list. -/
theorem expand_fold {blk : Cell → Bool} {s u : Cell} {δu : Nat}
    {rest vis0 : List Cell} :
    ∀ (ds : List Cell), (∀ d ∈ ds, d ∈ dirs) →
    ∀ (st : BfsSt) (δ : Cell → Nat) (news : List Cell),
    MidInv blk s u δu rest vis0 δ news st →
    ∃ δ' news',
      MidInv blk s u δu rest vis0 δ' news' (ds.foldl (pushNeighbor blk u) st) ∧
      (∀ c ∈ st.vis, δ' c = δ c) ∧
      (∀ d ∈ ds, ∀ n : Cell, n = (u.1 + d.1, u.2 + d.2) → inB n = true → blk n = false →
        n ∈ (ds.foldl (pushNeighbor blk u) st).vis) ∧
      (ds.foldl (pushNeighbor blk u) st).vis.length + st.queue.length =
        st.vis.length + (ds.foldl (pushNeighbor blk u) st).queue.length := by
  intro ds
  induction ds with
  | nil =>
    intro _ st δ news hm
    exact ⟨δ, news, hm, fun _ _ => rfl, by simp, rfl⟩
  | cons d ds ih =>
    intro hds st δ news hm
    obtain ⟨δ1, news1, hm1, hag1, _, hpost1, hlen1⟩ :=
      pushNeighbor_mid hm d (hds d (List.mem_cons_self _ _)) _ rfl
    obtain ⟨δ2, news2, hm2, hag2, hpost2, hlen2⟩ :=
      ih (fun d' hd' => hds d' (List.mem_cons_of_mem _ hd')) _ δ1 news1 hm1
    refine ⟨δ2, news2, hm2, ?_, ?_, ?_⟩
    · intro c hc
      exact (hag2 c (pushNeighbor_vis_mono blk u st d hc)).trans (hag1 c hc)
    · intro d' hd' n hn hb hk
      rcases List.mem_cons.mp hd' with rfl | hin
      · subst hn
        exact foldl_push_vis_mono blk u ds _ _ (hpost1 hb hk)
      · exact hpost2 d' hin n hn hb hk
    · have hgoal : (ds.foldl (pushNeighbor blk u) (pushNeighbor blk u st d)).vis.length +
          st.queue.length =
          st.vis.length +
            (ds.foldl (pushNeighbor blk u) (pushNeighbor blk u st d)).queue.length := by
        omega
      exact hgoal

theorem pairwise_of_all {α : Type} {R : α → α → Prop} :
    ∀ (l : List α), (∀ a ∈ l, ∀ b ∈ l, R a b) → l.Pairwise R := by
  intro l
  induction l with
  | nil => intro _; exact List.Pairwise.nil
  | cons a l ih =>
    intro h
    refine List.Pairwise.cons ?_ (ih ?_)
    · intro b hb
      exact h a (List.mem_cons_self _ _) b (List.mem_cons_of_mem _ hb)
    · intro x hx y hy
      exact h x (List.mem_cons_of_mem _ hx) y (List.mem_cons_of_mem _ hy)

/-- One full iteration of the BFS loop body (pop `u ≠ t`, expand all four
    directions) preserves the full invariant and strictly shrinks the measure. -/
theorem bfs_iteration {blk : Cell → Bool} {s t : Cell} {δ : Cell → Nat} {st : BfsSt}
    {u : Cell} {rest : List Cell}
    (inv : BfsInv blk s t δ st) (hq : st.queue = u :: rest) (hut : u ≠ t) :
    ∃ δ',
      BfsInv blk s t δ' (dirs.foldl (pushNeighbor blk u) { st with queue := rest }) ∧
      (dirs.foldl (pushNeighbor blk u) { st with queue := rest }).vis.length + rest.length =
        st.vis.length +
          (dirs.foldl (pushNeighbor blk u) { st with queue := rest }).queue.length ∧
      st.vis.length ≤
        (dirs.foldl (pushNeighbor blk u) { st with queue := rest }).vis.length ∧
      (dirs.foldl (pushNeighbor blk u) { st with queue := rest }).vis.length ≤ 201 := by
  have huvis : u ∈ st.vis := inv.qSub u (by rw [hq]; exact List.mem_cons_self _ _)
  have hunr : u ∉ rest := by
    have := inv.qNodup
    rw [hq] at this
    exact (List.nodup_cons.mp this).1
  have hrb : ∀ c ∈ rest, δ u ≤ δ c ∧ δ c ≤ δ u + 1 := by
    have := inv.qMono
    rw [hq] at this
    exact fun c hc => (List.pairwise_cons.mp this).1 c hc
  have hrp : rest.Pairwise (fun a b => δ a ≤ δ b ∧ δ b ≤ δ a + 1) := by
    have := inv.qMono
    rw [hq] at this
    exact (List.pairwise_cons.mp this).2
  have hmid : MidInv blk s u (δ u) rest st.vis δ []
      { st with queue := rest } :=
    { visNodup := inv.visNodup
      visOk := inv.visOk
      sVis := inv.sVis
      ds0 := inv.ds0
      visDist := inv.visDist
      parentVis := inv.parentVis
      parentSome := inv.parentSome
      uVis := huvis
      du_eq := rfl
      qEq := by simp
      newsOk := by simp
      visEq := by simp
      newsFresh := by simp
      qSub := fun c hc => inv.qSub c (by rw [hq]; exact List.mem_cons_of_mem _ hc)
      qNodup := by
        have := inv.qNodup
        rw [hq] at this
        exact (List.nodup_cons.mp this).2
      restBound := hrb
      restPair := hrp
      closedM := by
        intro c hc hcq hcu c' ha hb hk
        refine inv.closed c hc ?_ c' ha hb hk
        rw [hq]
        intro hmem
        rcases List.mem_cons.mp hmem with rfl | hmem
        · exact hcu rfl
        · exact hcq hmem }
  obtain ⟨δ', news', hm', hag', hpost', hlen'⟩ :=
    expand_fold dirs (fun _ h => h) _ δ [] hmid
  have hvisLe : (dirs.foldl (pushNeighbor blk u) { st with queue := rest }).vis.length ≤ 201 := by
    refine vis_length_le (s := s) hm'.visNodup ?_
    intro c hc
    rcases hm'.visOk c hc with h | h
    · exact Or.inl h
    · exact Or.inr h.1
  have hqeq := hm'.qEq
  refine ⟨δ', ?_, ?_, ?_, hvisLe⟩
  · refine
      { visNodup := hm'.visNodup
        visOk := hm'.visOk
        sVis := hm'.sVis
        ds0 := hm'.ds0
        visDist := hm'.visDist
        parentVis := hm'.parentVis
        parentSome := hm'.parentSome
        qSub := hm'.qSub
        qNodup := hm'.qNodup
        qMono := ?_
        closed := ?_
        tInQ := ?_ }
    · rw [hqeq]
      rw [List.pairwise_append]
      refine ⟨hm'.restPair, pairwise_of_all _ ?_, ?_⟩
      · intro a ha b hb
        rw [hm'.newsOk a ha, hm'.newsOk b hb]
        omega
      · intro a ha b hb
        have h1 := hm'.restBound a ha
        have h2 := hm'.newsOk b hb
        omega
    · intro c hc hcq c' ha hb hk
      by_cases hcu : c = u
      · subst hcu
        rcases ha with ⟨d, hd, hc'⟩
        exact hpost' d hd c' hc' hb hk
      · exact hm'.closedM c hc hcq hcu c' ha hb hk
    · intro ht
      rcases (hm'.visEq t).mp ht with h0 | hn
      · have := inv.tInQ h0
        rw [hq] at this
        rcases List.mem_cons.mp this with rfl | hmem
        · exact absurd rfl hut
        · rw [hqeq]
          exact List.mem_append_left _ hmem
      · rw [hqeq]
        exact List.mem_append_right _ hn
  · exact hlen'
  · have hlen2 : (dirs.foldl (pushNeighbor blk u) { st with queue := rest }).vis.length +
        rest.length =
        st.vis.length +
          (dirs.foldl (pushNeighbor blk u) { st with queue := rest }).queue.length := hlen'
    have hge : rest.length ≤
        (dirs.foldl (pushNeighbor blk u) { st with queue := rest }).queue.length := by
      rw [hqeq]
      simp
    omega

/-- Termination measure for the BFS loop. -/
def bfsMeasure (st : BfsSt) : Nat := st.queue.length + 2 * (201 - st.vis.length)

/-- The BFS loop terminates within the measure and, on exit, either found the
    target (with a well-formed optimal parent forest) or exhausted the queue
    (with the full invariant intact). -/
theorem bfsLoop_spec {blk : Cell → Bool} {s t : Cell} :
    ∀ (fuel : Nat) (st : BfsSt) (δ : Cell → Nat),
    BfsInv blk s t δ st → bfsMeasure st < fuel →
    ∃ found st', bfsLoop blk t fuel st = some (found, st') ∧
      ((found = true ∧ t ∈ st'.vis ∧ ∃ δ', InvCore blk s δ' st') ∨
       (found = false ∧ st'.queue = [] ∧ ∃ δ', BfsInv blk s t δ' st')) := by
  intro fuel
  induction fuel with
  | zero =>
    intro st δ inv hm
    exact absurd hm (Nat.not_lt_zero _)
  | succ fuel ih =>
    intro st δ inv hm
    cases hq : st.queue with
    | nil =>
      refine ⟨false, st, ?_, Or.inr ⟨rfl, hq, δ, inv⟩⟩
      simp only [bfsLoop, hq]
    | cons u rest =>
      by_cases hut : u = t
      · subst hut
        refine ⟨true, { st with queue := rest }, ?_,
          Or.inl ⟨rfl, inv.qSub u (by rw [hq]; exact List.mem_cons_self _ _), δ, ?_⟩⟩
        · simp only [bfsLoop, hq]
          rw [if_pos trivial]
        · exact
            { visNodup := inv.visNodup
              visOk := inv.visOk
              sVis := inv.sVis
              ds0 := inv.ds0
              visDist := inv.visDist
              parentVis := inv.parentVis
              parentSome := inv.parentSome }
      · obtain ⟨δ', inv', hlen, hv1, hv2⟩ := bfs_iteration inv hq hut
        have hm' : bfsMeasure (dirs.foldl (pushNeighbor blk u) { st with queue := rest }) <
            fuel := by
          unfold bfsMeasure at hm ⊢
          rw [hq] at hm
          simp only [List.length_cons] at hm
          omega
        obtain ⟨found, st', heq, hpost⟩ := ih _ δ' inv' hm'
        refine ⟨found, st', ?_, hpost⟩
        simp only [bfsLoop, hq, if_neg hut]
        exact heq

/-- With an empty queue, every reachable cell has been visited. -/
theorem bfs_complete {blk : Cell → Bool} {s t : Cell} {δ : Cell → Nat} {st : BfsSt}
    (inv : BfsInv blk s t δ st) (hq : st.queue = []) :
    ∀ c n, PathTo blk s c n → c ∈ st.vis := by
  intro c n hp
  induction hp with
  | nil => exact inv.sVis
  | cons hp ha hb hk ih =>
    rename_i c0 c' n0
    exact inv.closed c0 ih (by rw [hq]; exact List.not_mem_nil _) c' ha hb hk

theorem nodup_subset_length_le {l l' : List Cell} (hd : l.Nodup) (hd' : l'.Nodup)
    (hsub : ∀ x ∈ l, x ∈ l') : l.length ≤ l'.length := by
  rw [← List.toFinset_card_of_nodup hd, ← List.toFinset_card_of_nodup hd']
  exact Finset.card_le_card
    (fun x hx => List.mem_toFinset.mpr (hsub x (List.mem_toFinset.mp hx)))

/-- From a visited non-start cell, the parent pointers describe a path list from
    the start whose length is the recorded distance plus one, and `backtrack`
    returns its second element. -/
theorem backtrack_chain {blk : Cell → Bool} {s : Cell} {δ : Cell → Nat} {st : BfsSt}
    (core : InvCore blk s δ st) :
    ∀ dd, ∀ c, c ∈ st.vis → c ≠ s → δ c = dd →
    ∃ (r : Cell) (p : List Cell),
      (∀ fuel, dd ≤ fuel → backtrack st.parent s fuel c = some r) ∧
      p.Chain' Adj ∧ p.head? = some s ∧ p.getLast? = some c ∧
      (∀ x ∈ p.tail, x ∈ st.vis ∧ x ≠ s) ∧
      p.length = dd + 1 ∧ p[1]? = some r ∧ r ∈ st.vis ∧ r ≠ s ∧
      p.Pairwise (fun a b => δ a < δ b) ∧ (∀ x ∈ p, x ∈ st.vis) ∧
      (∀ x ∈ p, δ x ≤ dd) := by
  intro dd
  induction dd using Nat.strong_induction_on with
  | _ dd ih =>
    intro c hc hcs hdc
    obtain ⟨pr, hpr⟩ := core.parentSome c hc hcs
    obtain ⟨hcv, hcns, hprv, hadj, hδc⟩ := core.parentVis c pr hpr
    by_cases hps : pr = s
    · subst hps
      have hd1 : dd = 1 := by
        rw [← hdc, hδc, core.ds0]
      refine ⟨c, [pr, c], ?_, List.chain'_pair.mpr hadj, rfl, rfl, ?_, ?_, rfl, hc, hcs, ?_, ?_, ?_⟩
      · intro fuel hf
        rw [hd1] at hf
        cases fuel with
        | zero => exact absurd hf (by omega)
        | succ f =>
          show backtrack st.parent pr (f + 1) c = some c
          simp only [backtrack, hpr]
          rw [if_pos trivial]
      · intro x hx
        rcases List.mem_singleton.mp hx with rfl
        exact ⟨hc, hcs⟩
      · rw [hd1]
        rfl
      · refine List.pairwise_cons.mpr ⟨?_, List.pairwise_singleton _ _⟩
        intro b hb
        rcases List.mem_singleton.mp hb with rfl
        rw [core.ds0, hδc, core.ds0]
        omega
      · intro x hx
        rcases List.mem_cons.mp hx with rfl | hx
        · exact core.sVis
        · rcases List.mem_singleton.mp hx with rfl
          exact hc
      · intro x hx
        rcases List.mem_cons.mp hx with rfl | hx
        · rw [core.ds0]
          omega
        · rcases List.mem_singleton.mp hx with rfl
          omega
    · have hd2 : 1 ≤ δ pr := by
        rcases Nat.eq_zero_or_pos (δ pr) with h0 | h1
        · exfalso
          have := (core.visDist pr hprv).1
          rw [h0] at this
          exact hps (pathTo_zero this)
        · exact h1
      have hdd2 : 2 ≤ dd := by omega
      obtain ⟨r, p', hbt, hch, hhd, hlast, htail, hlen, hget, hrv, hrs, hpw, hpv, hpb⟩ :=
        ih (dd - 1) (by omega) pr hprv hps (by omega)
      have hp'ne : p' ≠ [] := by
        intro h
        rw [h] at hlen
        simp at hlen
      refine ⟨r, p' ++ [c], ?_, ?_, ?_, ?_, ?_, ?_, ?_, hrv, hrs, ?_, ?_, ?_⟩
      · intro fuel hf
        cases fuel with
        | zero => exact absurd hf (by omega)
        | succ f =>
          show backtrack st.parent s (f + 1) c = some r
          simp only [backtrack, hpr]
          rw [if_neg hps]
          exact hbt f (by omega)
      · rw [List.chain'_append]
        refine ⟨hch, List.chain'_singleton _, ?_⟩
        intro x hx y hy
        rw [hlast] at hx
        rcases Option.mem_some_iff.mp hx with rfl
        rcases Option.mem_some_iff.mp hy with rfl
        exact hadj
      · rw [List.head?_append_of_ne_nil _ hp'ne]
        exact hhd
      · rw [List.getLast?_concat]
      · intro x hx
        obtain ⟨a, t, rfl⟩ := List.exists_cons_of_ne_nil hp'ne
        rw [List.cons_append, List.tail_cons] at hx
        rcases List.mem_append.mp hx with hin | hone
        · exact htail x hin
        · rcases List.mem_singleton.mp hone with rfl
          exact ⟨hcv, hcns⟩
      · rw [List.length_append, hlen]
        simp
        omega
      · rw [List.getElem?_append_left (by omega : 1 < p'.length)]
        exact hget
      · rw [List.pairwise_append]
        refine ⟨hpw, List.pairwise_singleton _ _, ?_⟩
        intro a ha b hb
        rcases List.mem_singleton.mp hb with rfl
        have := hpb a ha
        rw [hdc] at hδc ⊢
        omega
      · intro x hx
        rcases List.mem_append.mp hx with hin | hone
        · exact hpv x hin
        · rcases List.mem_singleton.mp hone with rfl
          exact hc
      · intro x hx
        rcases List.mem_append.mp hx with hin | hone
        · have := hpb x hin
          omega
        · rcases List.mem_singleton.mp hone with rfl
          omega

/-- A chained list of cells whose non-head members are in-bounds and unblocked
    describes a `PathTo` of one less than its length. -/
theorem pathList_pathTo {blk : Cell → Bool} {s : Cell} :
    ∀ (q : List Cell) (c : Cell), q.Chain' Adj → q.head? = some s →
    q.getLast? = some c → (∀ x ∈ q.tail, inB x = true ∧ blk x = false) →
    PathTo blk s c (q.length - 1) := by
  intro q
  induction q using List.reverseRecOn with
  | nil =>
    intro c _ hh _ _
    simp at hh
  | append_singleton q x ih =>
    intro c hch hh hl htl
    rw [List.getLast?_concat] at hl
    injection hl with hl
    subst hl
    cases q with
    | nil =>
      simp only [List.nil_append, List.head?_cons, Option.some.injEq] at hh
      subst hh
      exact PathTo.nil
    | cons a t =>
      have hne : a :: t ≠ [] := by simp
      rw [List.head?_append_of_ne_nil _ hne] at hh
      have hdecomp := List.chain'_append.mp hch
      obtain ⟨hch1, _, hlink⟩ := hdecomp
      have hy : (a :: t).getLast? = some ((a :: t).getLast hne) :=
        List.getLast?_eq_getLast _ hne
      have hadj : Adj ((a :: t).getLast hne) x := by
        refine hlink _ ?_ x ?_
        · rw [hy]; rfl
        · rfl
      have htl1 : ∀ z ∈ (a :: t).tail, inB z = true ∧ blk z = false := by
        intro z hz
        refine htl z ?_
        rw [List.cons_append, List.tail_cons]
        exact List.mem_append_left _ hz
      have hcx : inB x = true ∧ blk x = false := by
        refine htl x ?_
        rw [List.cons_append, List.tail_cons]
        exact List.mem_append_right _ (List.mem_singleton.mpr rfl)
      have hprev := ih ((a :: t).getLast hne) hch1 hh hy htl1
      have hstep := PathTo.cons hprev hadj hcx.1 hcx.2
      have hlen : (a :: t).length - 1 + 1 = ((a :: t) ++ [x]).length - 1 := by
        simp
      rwa [hlen] at hstep

/-- The invariant holds for the initial BFS state. -/
theorem bfsInv_init {blk : Cell → Bool} {s t : Cell} (hst : s ≠ t) :
    BfsInv blk s t (fun _ => 0)
      { vis := [s], parent := fun _ => none, queue := [s] } :=
  { visNodup := List.nodup_singleton _
    visOk := fun c hc => Or.inl (List.mem_singleton.mp hc)
    sVis := List.mem_singleton.mpr rfl
    ds0 := rfl
    visDist := by
      intro c hc
      rcases List.mem_singleton.mp hc with rfl
      exact isDist_self blk c
    parentVis := by
      intro c p hp
      cases hp
    parentSome := by
      intro c hc hcs
      exact absurd (List.mem_singleton.mp hc) hcs
    qSub := fun c hc => hc
    qNodup := List.nodup_singleton _
    qMono := List.pairwise_singleton _ _
    closed := by
      intro c hc hcq
      exact absurd hc hcq
    tInQ := by
      intro ht
      exact absurd (List.mem_singleton.mp ht).symm hst }

/-- The initial BFS state used by `bfs_next_step`. -/
def initSt (sx sy : Int) : BfsSt :=
  { vis := [(sx, sy)], parent := fun _ => none, queue := [(sx, sy)] }

/-- Outcome of the BFS run: the found flag decides path existence, and each case
    carries the facts needed downstream. -/
theorem bfs_run (map : Grid) (sx sy tx ty : Int) (occ : List Cell)
    (hne : ¬(sx = tx ∧ sy = ty)) :
    ∃ found st',
      bfsLoop (stepBlk map occ tx ty) (tx, ty) bfsFuel (initSt sx sy) =
        some (found, st') ∧
      (found = true →
        ((tx, ty) : Cell) ∈ st'.vis ∧
        ∃ δ', InvCore (stepBlk map occ tx ty) (sx, sy) δ' st') ∧
      (found = false →
        ¬(∃ n, PathTo (stepBlk map occ tx ty) (sx, sy) (tx, ty) n)) := by
  have hst : ((sx, sy) : Cell) ≠ (tx, ty) := by
    intro h
    exact hne ⟨congrArg Prod.fst h, congrArg Prod.snd h⟩
  obtain ⟨found, st', heq, hpost⟩ :=
    bfsLoop_spec bfsFuel (initSt sx sy) (fun _ => 0) (bfsInv_init hst)
      (by norm_num [bfsMeasure, bfsFuel, initSt])
  rcases hpost with ⟨hfound, htvis, δ', core⟩ | ⟨hfound, hqe, δ', inv'⟩
  · refine ⟨found, st', heq, fun _ => ⟨htvis, δ', core⟩, fun hcontra => ?_⟩
    rw [hfound] at hcontra
    cases hcontra
  · refine ⟨found, st', heq, fun hcontra => ?_, fun _ => ?_⟩
    · rw [hfound] at hcontra
      cases hcontra
    · intro hpath
      obtain ⟨n, hp⟩ := hpath
      have hmem := bfs_complete inv' hqe (tx, ty) n hp
      have := inv'.tInQ hmem
      rw [hqe] at this
      exact List.not_mem_nil _ this

/-- When a path exists, `bfs_next_step` returns the first cell after start along
    a shortest path. -/
theorem bfs_next_step_found (map : Grid) (sx sy tx ty : Int) (occ : List Cell)
    (hne : ¬(sx = tx ∧ sy = ty))
    (hpath : ∃ n, PathTo (stepBlk map occ tx ty) (sx, sy) (tx, ty) n) :
    ∃ (r : Cell) (d : Nat) (p : List Cell),
      bfs_next_step map sx sy tx ty occ = some r ∧
      IsDist (stepBlk map occ tx ty) (sx, sy) (tx, ty) d ∧
      p.Chain' Adj ∧ p.head? = some (sx, sy) ∧ p.getLast? = some (tx, ty) ∧
      (∀ x ∈ p.tail, inB x = true ∧ stepBlk map occ tx ty x = false) ∧
      p.length = d + 1 ∧ p[1]? = some r ∧
      (inB r = true ∧ stepBlk map occ tx ty r = false) := by
  have hst : ((sx, sy) : Cell) ≠ (tx, ty) := by
    intro h
    exact hne ⟨congrArg Prod.fst h, congrArg Prod.snd h⟩
  obtain ⟨found, st', heq, hT, hF⟩ := bfs_run map sx sy tx ty occ hne
  cases found with
  | false => exact absurd hpath (hF rfl)
  | true =>
    obtain ⟨htvis, δ', core⟩ := hT rfl
    obtain ⟨r, p, hbt, hch, hhd, hlast, htail, hlen, hget, hrv, hrs, hpw, hpv, hpb⟩ :=
      backtrack_chain core (δ' (tx, ty)) (tx, ty) htvis (Ne.symm hst) rfl
    have hnodup : p.Nodup := by
      refine hpw.imp ?_
      intro a b hab hab'
      rw [hab'] at hab
      exact Nat.lt_irrefl _ hab
    have hplen : p.length ≤ st'.vis.length := nodup_subset_length_le hnodup core.visNodup hpv
    have hvisle : st'.vis.length ≤ 201 := by
      refine vis_length_le (s := ((sx, sy) : Cell)) core.visNodup ?_
      intro c hc
      rcases core.visOk c hc with h | h
      · exact Or.inl h
      · exact Or.inr h.1
    have hdle : δ' (tx, ty) ≤ btFuel := by
      show δ' (tx, ty) ≤ 201
      omega
    have hbtr := hbt btFuel hdle
    have hrOk : inB r = true ∧ stepBlk map occ tx ty r = false := by
      rcases core.visOk r hrv with h | h
      · exact absurd h hrs
      · exact h
    refine ⟨r, δ' (tx, ty), p, ?_, core.visDist _ htvis, hch, hhd, hlast, ?_, hlen, hget, hrOk⟩
    · unfold bfs_next_step
      rw [if_neg hne]
      simp only []
      rw [show (bfsLoop (stepBlk map occ tx ty) (tx, ty) bfsFuel
        { vis := [((sx : Int), (sy : Int))], parent := fun _ => none,
          queue := [((sx : Int), (sy : Int))] }) =
        some (true, st') from heq]
      simp only [if_pos]
      exact hbtr
    · intro x hx
      obtain ⟨hxv, hxs⟩ := htail x hx
      rcases core.visOk x hxv with h | h
      · exact absurd h hxs
      · exact h

/-- A cell that passes the blocked test is an in-bounds floor cell. -/
theorem stepBlk_false_floor {map : Grid} {occ : List Cell} {tx ty : Int} {c : Cell}
    (h : stepBlk map occ tx ty c = false) :
    inB c = true ∧ map c.2 c.1 = '.' := by
  unfold stepBlk blockedAt at h
  by_cases hb : inBounds c.1 c.2 = false
  · rw [if_pos hb] at h
    cases h
  · rw [if_neg hb] at h
    refine ⟨?_, ?_⟩
    · cases hbv : inBounds c.1 c.2 with
      | false => exact absurd hbv hb
      | true => exact hbv
    by_cases hm : map c.2 c.1 ≠ '.'
    · rw [if_pos hm] at h
      cases h
    · push_neg at hm
      exact hm

/-- A non-target cell that passes the blocked test is not occupied. -/
theorem stepBlk_false_occ {map : Grid} {occ : List Cell} {tx ty : Int} {c : Cell}
    (h : stepBlk map occ tx ty c = false) (hc : c ≠ (tx, ty)) : c ∉ occ := by
  intro hmem
  unfold stepBlk blockedAt at h
  by_cases hb : inBounds c.1 c.2 = false
  · rw [if_pos hb] at h
    cases h
  · rw [if_neg hb] at h
    by_cases hm : map c.2 c.1 ≠ '.'
    · rw [if_pos hm] at h
      cases h
    · rw [if_neg hm] at h
      have : occ.any (fun p =>
          decide (p.1 = c.1) && decide (p.2 = c.2) &&
            !(decide (c.1 = tx) && decide (c.2 = ty))) = true := by
        refine List.any_eq_true.mpr ⟨c, hmem, ?_⟩
        cases hdec : decide (c.1 = tx) && decide (c.2 = ty) with
        | true =>
          exfalso
          simp only [Bool.and_eq_true, decide_eq_true_eq] at hdec
          exact hc (Prod.ext hdec.1 hdec.2)
        | false =>
          simp [hdec]
      rw [if_pos this] at h
      cases h

/-- With no path, `bfs_next_step` computes exactly the greedy fallback. -/
theorem bfs_next_step_greedy (map : Grid) (sx sy tx ty : Int) (occ : List Cell)
    (hne : ¬(sx = tx ∧ sy = ty))
    (hnopath : ¬∃ n, PathTo (stepBlk map occ tx ty) (sx, sy) (tx, ty) n) :
    bfs_next_step map sx sy tx ty occ =
      (let dx : Int := if tx > sx then 1 else if tx < sx then -1 else 0
       let dy : Int := if ty > sy then 1 else if ty < sy then -1 else 0
       if (tx - sx).natAbs ≥ (ty - sy).natAbs then
         if stepBlk map occ tx ty (sx + dx, sy) = false then some (sx + dx, sy)
         else if stepBlk map occ tx ty (sx, sy + dy) = false then some (sx, sy + dy)
         else some (sx, sy)
       else
         if stepBlk map occ tx ty (sx, sy + dy) = false then some (sx, sy + dy)
         else if stepBlk map occ tx ty (sx + dx, sy) = false then some (sx + dx, sy)
         else some (sx, sy)) := by
  obtain ⟨found, st', heq, hT, hF⟩ := bfs_run map sx sy tx ty occ hne
  cases found with
  | true =>
    obtain ⟨htvis, δ', core⟩ := hT rfl
    exact absurd ⟨δ' (tx, ty), (core.visDist _ htvis).1⟩ hnopath
  | false =>
    unfold bfs_next_step
    rw [if_neg hne]
    simp only []
    rw [show (bfsLoop (stepBlk map occ tx ty) (tx, ty) bfsFuel
      { vis := [((sx : Int), (sy : Int))], parent := fun _ => none,
        queue := [((sx : Int), (sy : Int))] }) =
      some (false, st') from heq]
    rfl

/-- The pathfinder is total: it always returns a value. -/
theorem bfs_next_step_total (map : Grid) (sx sy tx ty : Int) (occ : List Cell) :
    ∃ r, bfs_next_step map sx sy tx ty occ = some r := by
  by_cases hne : sx = tx ∧ sy = ty
  · refine ⟨(sx, sy), ?_⟩
    unfold bfs_next_step
    rw [if_pos hne]
  · by_cases hpath : ∃ n, PathTo (stepBlk map occ tx ty) (sx, sy) (tx, ty) n
    · obtain ⟨r, _, _, hr, _⟩ := bfs_next_step_found map sx sy tx ty occ hne hpath
      exact ⟨r, hr⟩
    · rw [bfs_next_step_greedy map sx sy tx ty occ hne hpath]
      simp only []
      repeat' split
      all_goals exact ⟨_, rfl⟩

/-- Case analysis for the greedy fallback expression. -/
theorem greedy_cases (f : Cell → Bool) (a b c r : Cell) (P : Prop) [Decidable P]
    (h : (if P then (if f a = false then some a else if f b = false then some b else some c)
          else (if f b = false then some b else if f a = false then some a else some c)) =
      some r) :
    r = c ∨ f r = false := by
  split at h
  · split at h
    · injection h with h
      subst h
      right
      rename_i hblk
      exact hblk
    · split at h
      · injection h with h
        subst h
        right
        rename_i hblk
        exact hblk
      · injection h with h
        subst h
        left
        rfl
  · split at h
    · injection h with h
      subst h
      right
      rename_i hblk
      exact hblk
    · split at h
      · injection h with h
        subst h
        right
        rename_i hblk
        exact hblk
      · injection h with h
        subst h
        left
        rfl

/-- Whatever it returns, the pathfinder's step is the start itself or an
    in-bounds, unblocked cell. -/
theorem bfs_next_step_safe (map : Grid) (sx sy tx ty : Int) (occ : List Cell) (r : Cell)
    (h : bfs_next_step map sx sy tx ty occ = some r) :
    r = (sx, sy) ∨ (inB r = true ∧ stepBlk map occ tx ty r = false) := by
  by_cases hne : sx = tx ∧ sy = ty
  · left
    unfold bfs_next_step at h
    rw [if_pos hne] at h
    injection h with h
    exact h.symm
  · by_cases hpath : ∃ n, PathTo (stepBlk map occ tx ty) (sx, sy) (tx, ty) n
    · obtain ⟨r', d, p, hr', _, _, _, _, _, _, _, hOk⟩ :=
        bfs_next_step_found map sx sy tx ty occ hne hpath
      rw [h] at hr'
      injection hr' with hr'
      rw [hr']
      exact Or.inr hOk
    · rw [bfs_next_step_greedy map sx sy tx ty occ hne hpath] at h
      simp only [] at h
      rcases greedy_cases (stepBlk map occ tx ty) _ _ _ r _ h with h1 | h2
      · exact Or.inl h1
      · exact Or.inr ⟨(stepBlk_false_floor h2).1, h2⟩

/-- Manhattan distance between cells. -/
def manhattan (a b : Cell) : Nat := (a.1 - b.1).natAbs + (a.2 - b.2).natAbs

theorem adj_cases {a b : Cell} (h : Adj a b) :
    b = (a.1 + 1, a.2) ∨ b = (a.1 - 1, a.2) ∨ b = (a.1, a.2 + 1) ∨ b = (a.1, a.2 - 1) := by
  obtain ⟨d, hd, rfl⟩ := h
  have : d = ((1 : Int), (0 : Int)) ∨ d = (-1, 0) ∨ d = (0, 1) ∨ d = (0, -1) := by
    simpa [dirs] using hd
  rcases this with rfl | rfl | rfl | rfl
  · left
    show (a.1 + 1, a.2 + 0) = (a.1 + 1, a.2)
    refine Prod.ext ?_ ?_ <;> dsimp only <;> omega
  · right
    left
    show (a.1 + -1, a.2 + 0) = (a.1 - 1, a.2)
    refine Prod.ext ?_ ?_ <;> dsimp only <;> omega
  · right
    right
    left
    show (a.1 + 0, a.2 + 1) = (a.1, a.2 + 1)
    refine Prod.ext ?_ ?_ <;> dsimp only <;> omega
  · right
    right
    right
    show (a.1 + 0, a.2 + -1) = (a.1, a.2 - 1)
    refine Prod.ext ?_ ?_ <;> dsimp only <;> omega

theorem manhattan_le_pathTo {blk : Cell → Bool} {s c : Cell} {n : Nat}
    (h : PathTo blk s c n) : manhattan s c ≤ n := by
  induction h with
  | nil => simp [manhattan]
  | cons hp ha hb hk ih =>
    rename_i c0 c' n0
    have hstep : manhattan s c' ≤ manhattan s c0 + 1 := by
      rcases adj_cases ha with rfl | rfl | rfl | rfl <;>
        · unfold manhattan
          dsimp only
          omega
    omega

/-- The fully open floor grid. -/
def openMap : Grid := fun _ _ => '.'

theorem open_blk_false (tx ty : Int) {c : Cell} (hb : inB c = true) :
    stepBlk openMap [] tx ty c = false := by
  unfold stepBlk blockedAt
  rw [if_neg (by rw [show inBounds c.1 c.2 = inB c from rfl, hb]; simp)]
  rw [if_neg (by simp [openMap])]
  rw [if_neg (by simp)]

theorem open_path (tx ty : Int) :
    ∀ n (s t : Cell), inB s = true → inB t = true → manhattan s t = n →
    PathTo (stepBlk openMap [] tx ty) s t n := by
  intro n
  induction n with
  | zero =>
    intro s t hs ht hm
    unfold manhattan at hm
    have h1 : s.1 = t.1 := by omega
    have h2 : s.2 = t.2 := by omega
    have : s = t := Prod.ext h1 h2
    subst this
    exact PathTo.nil
  | succ n ih =>
    intro s t hs ht hm
    have hsB : (decide (0 ≤ s.1) && decide (s.1 < MAP_W) &&
        decide (0 ≤ s.2) && decide (s.2 < MAP_H)) = true := hs
    have htB : (decide (0 ≤ t.1) && decide (t.1 < MAP_W) &&
        decide (0 ≤ t.2) && decide (t.2 < MAP_H)) = true := ht
    simp only [Bool.and_eq_true, decide_eq_true_eq] at hsB htB
    by_cases hx : s.1 = t.1
    · have hy2 : s.2 ≠ t.2 := by
        intro h2
        unfold manhattan at hm
        omega
      rcases lt_or_gt_of_ne hy2 with hlt | hgt
      · have hyB : inB (t.1, t.2 - 1) = true := by
          show (decide (0 ≤ t.1) && decide (t.1 < MAP_W) &&
            decide (0 ≤ t.2 - 1) && decide (t.2 - 1 < MAP_H)) = true
          simp only [Bool.and_eq_true, decide_eq_true_eq]
          omega
        have hmy : manhattan s (t.1, t.2 - 1) = n := by
          unfold manhattan at hm ⊢
          dsimp only
          omega
        refine PathTo.cons (ih s (t.1, t.2 - 1) hs hyB hmy) ?_ ht (open_blk_false tx ty ht)
        refine ⟨(0, 1), by simp [dirs], ?_⟩
        show t = (t.1 + 0, t.2 - 1 + 1)
        refine Prod.ext ?_ ?_ <;> dsimp only <;> omega
      · have hyB : inB (t.1, t.2 + 1) = true := by
          show (decide (0 ≤ t.1) && decide (t.1 < MAP_W) &&
            decide (0 ≤ t.2 + 1) && decide (t.2 + 1 < MAP_H)) = true
          simp only [Bool.and_eq_true, decide_eq_true_eq]
          omega
        have hmy : manhattan s (t.1, t.2 + 1) = n := by
          unfold manhattan at hm ⊢
          dsimp only
          omega
        refine PathTo.cons (ih s (t.1, t.2 + 1) hs hyB hmy) ?_ ht (open_blk_false tx ty ht)
        refine ⟨(0, -1), by simp [dirs], ?_⟩
        show t = (t.1 + 0, t.2 + 1 + -1)
        refine Prod.ext ?_ ?_ <;> dsimp only <;> omega
    · rcases lt_or_gt_of_ne hx with hlt | hgt
      · have hyB : inB (t.1 - 1, t.2) = true := by
          show (decide (0 ≤ t.1 - 1) && decide (t.1 - 1 < MAP_W) &&
            decide (0 ≤ t.2) && decide (t.2 < MAP_H)) = true
          simp only [Bool.and_eq_true, decide_eq_true_eq]
          omega
        have hmy : manhattan s (t.1 - 1, t.2) = n := by
          unfold manhattan at hm ⊢
          dsimp only
          omega
        refine PathTo.cons (ih s (t.1 - 1, t.2) hs hyB hmy) ?_ ht (open_blk_false tx ty ht)
        refine ⟨(1, 0), by simp [dirs], ?_⟩
        show t = (t.1 - 1 + 1, t.2 + 0)
        refine Prod.ext ?_ ?_ <;> dsimp only <;> omega
      · have hyB : inB (t.1 + 1, t.2) = true := by
          show (decide (0 ≤ t.1 + 1) && decide (t.1 + 1 < MAP_W) &&
            decide (0 ≤ t.2) && decide (t.2 < MAP_H)) = true
          simp only [Bool.and_eq_true, decide_eq_true_eq]
          omega
        have hmy : manhattan s (t.1 + 1, t.2) = n := by
          unfold manhattan at hm ⊢
          dsimp only
          omega
        refine PathTo.cons (ih s (t.1 + 1, t.2) hs hyB hmy) ?_ ht (open_blk_false tx ty ht)
        refine ⟨(-1, 0), by simp [dirs], ?_⟩
        show t = (t.1 + 1 + -1, t.2 + 0)
        refine Prod.ext ?_ ?_ <;> dsimp only <;> omega

/-- C2: `bfs_next_step` returns start when start equals target; when a BFS path
    exists (obstacles blocked except the target itself), it returns the first
    cell after start along a shortest path; in particular on the fully open
    grid with no obstacles the returned cell is strictly closer to the target
    in Manhattan distance. -/
theorem C2_bfs_shortest_step :
    (∀ (map : Grid) (sx sy tx ty : Int) (occ : List Cell), sx = tx ∧ sy = ty →
      bfs_next_step map sx sy tx ty occ = some (sx, sy)) ∧
    (∀ (map : Grid) (sx sy tx ty : Int) (occ : List Cell), ¬(sx = tx ∧ sy = ty) →
      (∃ n, PathTo (stepBlk map occ tx ty) (sx, sy) (tx, ty) n) →
      ∃ (r : Cell) (p : List Cell),
        bfs_next_step map sx sy tx ty occ = some r ∧
        p.Chain' Adj ∧ p.head? = some (sx, sy) ∧ p.getLast? = some (tx, ty) ∧
        (∀ x ∈ p.tail, inB x = true ∧ stepBlk map occ tx ty x = false) ∧
        (∀ q : List Cell, q.Chain' Adj → q.head? = some (sx, sy) →
          q.getLast? = some (tx, ty) →
          (∀ x ∈ q.tail, inB x = true ∧ stepBlk map occ tx ty x = false) →
          p.length ≤ q.length) ∧
        p[1]? = some r) ∧
    (∀ (sx sy tx ty : Int), inBounds sx sy = true → inBounds tx ty = true →
      ¬(sx = tx ∧ sy = ty) →
      ∃ r : Cell, bfs_next_step openMap sx sy tx ty [] = some r ∧
        manhattan r (tx, ty) < manhattan (sx, sy) (tx, ty)) := by
  have hmain : ∀ (map : Grid) (sx sy tx ty : Int) (occ : List Cell),
      ¬(sx = tx ∧ sy = ty) →
      (∃ n, PathTo (stepBlk map occ tx ty) (sx, sy) (tx, ty) n) →
      ∃ (r : Cell) (d : Nat) (p : List Cell),
        bfs_next_step map sx sy tx ty occ = some r ∧
        IsDist (stepBlk map occ tx ty) (sx, sy) (tx, ty) d ∧
        p.Chain' Adj ∧ p.head? = some (sx, sy) ∧ p.getLast? = some (tx, ty) ∧
        (∀ x ∈ p.tail, inB x = true ∧ stepBlk map occ tx ty x = false) ∧
        p.length = d + 1 ∧
        (∀ q : List Cell, q.Chain' Adj → q.head? = some (sx, sy) →
          q.getLast? = some (tx, ty) →
          (∀ x ∈ q.tail, inB x = true ∧ stepBlk map occ tx ty x = false) →
          p.length ≤ q.length) ∧
        p[1]? = some r := by
    intro map sx sy tx ty occ hne hpath
    obtain ⟨r, d, p, hr, hdist, hch, hhd, hlast, htail, hlen, hget, _⟩ :=
      bfs_next_step_found map sx sy tx ty occ hne hpath
    refine ⟨r, d, p, hr, hdist, hch, hhd, hlast, htail, hlen, ?_, hget⟩
    intro q hqch hqhd hqlast hqtail
    have hq := pathList_pathTo q (tx, ty) hqch hqhd hqlast hqtail
    have hd := hdist.2 _ hq
    have hqpos : 1 ≤ q.length := by
      cases q with
      | nil => simp at hqhd
      | cons a t => simp
    omega
  refine ⟨?_, ?_, ?_⟩
  · intro map sx sy tx ty occ heq
    unfold bfs_next_step
    rw [if_pos heq]
  · intro map sx sy tx ty occ hne hpath
    obtain ⟨r, d, p, hr, _, hch, hhd, hlast, htail, _, hmin, hget⟩ :=
      hmain map sx sy tx ty occ hne hpath
    exact ⟨r, p, hr, hch, hhd, hlast, htail, hmin, hget⟩
  · intro sx sy tx ty hsB htB hne
    have hpath : ∃ n, PathTo (stepBlk openMap [] tx ty) (sx, sy) (tx, ty) n :=
      ⟨manhattan (sx, sy) (tx, ty),
        open_path tx ty _ (sx, sy) (tx, ty) hsB htB rfl⟩
    obtain ⟨r, d, p, hr, hdist, hch, hhd, hlast, htail, hlen, _, hget⟩ :=
      hmain openMap sx sy tx ty [] hne hpath
    have hdm : d = manhattan (sx, sy) (tx, ty) := by
      have h1 : d ≤ manhattan (sx, sy) (tx, ty) :=
        hdist.2 _ (open_path tx ty _ (sx, sy) (tx, ty) hsB htB rfl)
      have h2 : manhattan (sx, sy) (tx, ty) ≤ d := manhattan_le_pathTo hdist.1
      omega
    have hd1 : 1 ≤ d := by
      rcases Nat.eq_zero_or_pos d with h0 | h1
      · exfalso
        rw [h0] at hdist
        have := pathTo_zero hdist.1
        exact hne ⟨congrArg Prod.fst this.symm, congrArg Prod.snd this.symm⟩
      · exact h1
    obtain ⟨a, rest, rfl⟩ : ∃ a rest, p = a :: rest := by
      cases p with
      | nil => simp at hhd
      | cons a rest => exact ⟨a, rest, rfl⟩
    have ha : a = (sx, sy) := by
      simp only [List.head?_cons, Option.some.injEq] at hhd
      exact hhd
    have hrestne : rest ≠ [] := by
      intro h
      rw [h] at hlen
      simp at hlen
      omega
    have hresthd : rest.head? = some r := by
      have : (a :: rest)[1]? = rest.head? := by
        cases rest with
        | nil => simp
        | cons b t => simp
      rw [← this]
      exact hget
    have hrestlast : rest.getLast? = some (tx, ty) := by
      rw [← hlast]
      cases rest with
      | nil => exact absurd rfl hrestne
      | cons b t => simp [List.getLast?_cons_cons]
    have hrestch : rest.Chain' Adj := (List.chain'_cons'.mp hch).2
    have hresttail : ∀ x ∈ rest.tail, inB x = true ∧
        stepBlk openMap [] tx ty x = false := by
      intro x hx
      exact htail x (List.mem_of_mem_tail hx)
    have hrpath := pathList_pathTo rest (tx, ty) hrestch hresthd hrestlast hresttail
    have hrestlen : rest.length = d := by
      simp only [List.length_cons] at hlen
      omega
    have hman : manhattan r (tx, ty) ≤ d - 1 := by
      have := manhattan_le_pathTo hrpath
      rw [hrestlen] at this
      exact this
    exact ⟨r, hr, by omega⟩

/-- Any path leaving the start passes through an admissible neighbor of it. -/
theorem pathTo_first_step {blk : Cell → Bool} {s c : Cell} {n : Nat}
    (h : PathTo blk s c n) :
    c = s ∨ ∃ y, Adj s y ∧ inB y = true ∧ blk y = false := by
  induction h with
  | nil => exact Or.inl rfl
  | cons hp ha hb hk ih =>
    rcases ih with rfl | hy
    · right
      exact ⟨_, ha, hb, hk⟩
    · right
      exact hy

/-- Greedy fallback case split, remembering which candidate was returned. -/
theorem greedy_cases' (f : Cell → Bool) (a b c r : Cell) (P : Prop) [Decidable P]
    (h : (if P then (if f a = false then some a else if f b = false then some b else some c)
          else (if f b = false then some b else if f a = false then some a else some c)) =
      some r) :
    r = c ∨ ((r = a ∨ r = b) ∧ f r = false) := by
  split at h
  · split at h
    · injection h with h
      subst h
      right
      rename_i hblk
      exact ⟨Or.inl rfl, hblk⟩
    · split at h
      · injection h with h
        subst h
        right
        rename_i hblk
        exact ⟨Or.inr rfl, hblk⟩
      · injection h with h
        subst h
        exact Or.inl rfl
  · split at h
    · injection h with h
      subst h
      right
      rename_i hblk
      exact ⟨Or.inr rfl, hblk⟩
    · split at h
      · injection h with h
        subst h
        right
        rename_i hblk
        exact ⟨Or.inl rfl, hblk⟩
      · injection h with h
        subst h
        exact Or.inl rfl

/-- C3: when BFS finds no path, `bfs_next_step` computes the greedy fallback:
    try one cell along the larger-distance axis first (ties favor x), then the
    other axis, each accepted only if non-blocked floor, else stay; a start with
    no floor neighbors yields the start itself, and the function is total. -/
theorem C3_greedy_fallback :
    (∀ (map : Grid) (sx sy tx ty : Int) (occ : List Cell), ¬(sx = tx ∧ sy = ty) →
      ¬(∃ n, PathTo (stepBlk map occ tx ty) (sx, sy) (tx, ty) n) →
      bfs_next_step map sx sy tx ty occ =
        (let dx : Int := if tx > sx then 1 else if tx < sx then -1 else 0
         let dy : Int := if ty > sy then 1 else if ty < sy then -1 else 0
         if (tx - sx).natAbs ≥ (ty - sy).natAbs then
           if stepBlk map occ tx ty (sx + dx, sy) = false then some (sx + dx, sy)
           else if stepBlk map occ tx ty (sx, sy + dy) = false then some (sx, sy + dy)
           else some (sx, sy)
         else
           if stepBlk map occ tx ty (sx, sy + dy) = false then some (sx, sy + dy)
           else if stepBlk map occ tx ty (sx + dx, sy) = false then some (sx + dx, sy)
           else some (sx, sy))) ∧
    (∀ (map : Grid) (sx sy tx ty : Int) (occ : List Cell),
      (∀ d ∈ dirs, ¬(inB (sx + d.1, sy + d.2) = true ∧
        map (sy + d.2) (sx + d.1) = '.')) →
      bfs_next_step map sx sy tx ty occ = some (sx, sy)) ∧
    (∀ (map : Grid) (sx sy tx ty : Int) (occ : List Cell),
      ∃ r, bfs_next_step map sx sy tx ty occ = some r) := by
  refine ⟨?_, ?_, bfs_next_step_total⟩
  · intro map sx sy tx ty occ hne hnopath
    exact bfs_next_step_greedy map sx sy tx ty occ hne hnopath
  · intro map sx sy tx ty occ hF
    by_cases hne : sx = tx ∧ sy = ty
    · unfold bfs_next_step
      rw [if_pos hne]
    · have hnopath : ¬(∃ n, PathTo (stepBlk map occ tx ty) (sx, sy) (tx, ty) n) := by
        intro hpath
        obtain ⟨n, hp⟩ := hpath
        rcases pathTo_first_step hp with heq | ⟨y, hadj, hyb, hyk⟩
        · exact hne ⟨(congrArg Prod.fst heq).symm, (congrArg Prod.snd heq).symm⟩
        · obtain ⟨d, hd, rfl⟩ := hadj
          obtain ⟨_, hfl⟩ := stepBlk_false_floor hyk
          exact hF d hd ⟨hyb, hfl⟩
      obtain ⟨r, hr⟩ := bfs_next_step_total map sx sy tx ty occ
      have hgr := hr
      rw [bfs_next_step_greedy map sx sy tx ty occ hne hnopath] at hgr
      simp only [] at hgr
      rcases greedy_cases' (stepBlk map occ tx ty) _ _ _ r _ hgr with hc | ⟨hcand, hblk⟩
      · rw [hr, hc]
      · obtain ⟨hyb, hfl⟩ := stepBlk_false_floor hblk
        rcases hcand with rfl | rfl
        · by_cases hdx : tx > sx
          · exfalso
            rw [if_pos hdx] at hyb hfl
            refine hF (1, 0) (by simp [dirs]) ⟨?_, ?_⟩
            · show inB (sx + 1, sy + 0) = true
              rw [show ((sx + 1 : Int), (sy + 0 : Int)) = ((sx + 1 : Int), sy) from
                Prod.ext rfl (by dsimp only; omega)]
              exact hyb
            · show map (sy + 0) (sx + 1) = '.'
              rw [show (sy + 0 : Int) = sy by omega]
              exact hfl
          · by_cases hdx2 : tx < sx
            · exfalso
              rw [if_neg hdx, if_pos hdx2] at hyb hfl
              refine hF (-1, 0) (by simp [dirs]) ⟨?_, ?_⟩
              · show inB (sx + -1, sy + 0) = true
                rw [show ((sx + -1 : Int), (sy + 0 : Int)) = ((sx + -1 : Int), sy) from
                  Prod.ext rfl (by dsimp only; omega)]
                exact hyb
              · show map (sy + 0) (sx + -1) = '.'
                rw [show (sy + 0 : Int) = sy by omega]
                exact hfl
            · rw [hr]
              rw [if_neg hdx, if_neg hdx2]
              have hpz : ((sx + 0 : Int), (sy : Int)) = ((sx : Int), sy) := by
                refine Prod.ext ?_ ?_ <;> dsimp only <;> omega
              rw [hpz]
        · by_cases hdy : ty > sy
          · exfalso
            rw [if_pos hdy] at hyb hfl
            refine hF (0, 1) (by simp [dirs]) ⟨?_, ?_⟩
            · show inB (sx + 0, sy + 1) = true
              rw [show ((sx + 0 : Int), (sy + 1 : Int)) = ((sx : Int), (sy + 1 : Int)) from
                Prod.ext (by dsimp only; omega) rfl]
              exact hyb
            · show map (sy + 1) (sx + 0) = '.'
              rw [show (sx + 0 : Int) = sx by omega]
              exact hfl
          · by_cases hdy2 : ty < sy
            · exfalso
              rw [if_neg hdy, if_pos hdy2] at hyb hfl
              refine hF (0, -1) (by simp [dirs]) ⟨?_, ?_⟩
              · show inB (sx + 0, sy + -1) = true
                rw [show ((sx + 0 : Int), (sy + -1 : Int)) = ((sx : Int), (sy + -1 : Int)) from
                  Prod.ext (by dsimp only; omega) rfl]
                exact hyb
              · show map (sy + -1) (sx + 0) = '.'
                rw [show (sx + 0 : Int) = sx by omega]
                exact hfl
            · rw [hr]
              rw [if_neg hdy, if_neg hdy2]
              have hpz : ((sx : Int), (sy + 0 : Int)) = ((sx : Int), sy) := by
                refine Prod.ext ?_ ?_ <;> dsimp only <;> omega
              rw [hpz]

theorem C2_bfs_shortest_step_witness :
    ∃ r : Cell, bfs_next_step openMap 1 1 4 1 [] = some r ∧
      manhattan r (4, 1) < manhattan ((1 : Int), (1 : Int)) (4, 1) :=
  C2_bfs_shortest_step.2.2 1 1 4 1 (by decide) (by decide) (by decide)

/-- Grid with two isolated floor cells at (3,3) and (3,5). -/
def isoMap : Grid := fun y x =>
  if (x = 3 ∧ y = 3) ∨ (x = 3 ∧ y = 5) then '.' else '#'

theorem C3_greedy_fallback_witness :
    bfs_next_step isoMap 3 3 3 5 [] = some (3, 3) :=
  C3_greedy_fallback.2.1 isoMap 3 3 3 5 [] (by decide)

/-! ### C9 and C10: reachable-state invariants of the turn loop -/

/-- Generated grids contain only wall and floor characters. -/
def GridOk (map : Grid) : Prop :=
  ∀ x y : Int, map y x = '#' ∨ map y x = '.'

theorem gridOk_carve_room {map : Grid} (r : Rect) (h : GridOk map) :
    GridOk (carve_room map r) := by
  intro x y
  unfold carve_room
  split
  · right
    rfl
  · exact h x y

theorem gridOk_carve_h {map : Grid} (x1 x2 yy : Int) (h : GridOk map) :
    GridOk (carve_h map x1 x2 yy) := by
  intro x y
  unfold carve_h
  split
  · right
    rfl
  · exact h x y

theorem gridOk_carve_v {map : Grid} (y1 y2 xx : Int) (h : GridOk map) :
    GridOk (carve_v map y1 y2 xx) := by
  intro x y
  unfold carve_v
  split
  · right
    rfl
  · exact h x y

theorem gridOk_interior {map : Grid} (h : GridOk map) : GridOk (interior_floor map) := by
  intro x y
  unfold interior_floor
  split
  · right
    rfl
  · exact h x y

theorem genRoomsLoop_gridOk (g : RngStream) (fuel : Nat) :
    ∀ (rem : Nat) (map : Grid) (rooms : List Rect) (k : Nat)
      (m' : Grid) (rooms' : List Rect) (k' : Nat),
    genRoomsLoop g fuel rem map rooms k = some (m', rooms', k') →
    GridOk map → GridOk m' := by
  induction fuel with
  | zero =>
    intro rem map rooms k m' rooms' k' h _
    exact absurd h (by simp [genRoomsLoop])
  | succ fuel ih =>
    intro rem map rooms k m' rooms' k' h hok
    rw [genRoomsLoop] at h
    by_cases hrem : rem = 0
    · rw [if_pos hrem] at h
      simp only [Option.some.injEq, Prod.mk.injEq] at h
      obtain ⟨h1, _, _⟩ := h
      subst h1
      exact hok
    · rw [if_neg hrem] at h
      simp only [] at h
      split at h
      · exact ih _ _ _ _ _ _ _ h hok
      · split at h
        · exact ih _ _ _ _ _ _ _ h (gridOk_carve_room _ hok)
        · split at h
          · exact ih _ _ _ _ _ _ _ h
              (gridOk_carve_v _ _ _ (gridOk_carve_h _ _ _ (gridOk_carve_room _ hok)))
          · exact ih _ _ _ _ _ _ _ h
              (gridOk_carve_h _ _ _ (gridOk_carve_v _ _ _ (gridOk_carve_room _ hok)))

theorem generate_gridOk (g : RngStream) (fuel k : Nat) (map : Grid)
    (rooms : List Rect) (k' : Nat)
    (h : generate_map_basic g fuel k = some (map, rooms, k')) : GridOk map := by
  simp only [generate_map_basic] at h
  cases hg : genRoomsLoop g fuel (rnd 3 6 g k).1.toNat create_empty_map [] (rnd 3 6 g k).2 with
  | none => rw [hg] at h; exact absurd h (by simp)
  | some res =>
    obtain ⟨m, rooms0, k2⟩ := res
    rw [hg] at h
    simp only [Option.some.injEq, Prod.mk.injEq] at h
    obtain ⟨hmap, _, _⟩ := h
    have hm : GridOk m :=
      genRoomsLoop_gridOk g fuel _ create_empty_map [] _ m rooms0 k2 hg
        (fun _ _ => Or.inl rfl)
    subst hmap
    by_cases hany : anyFloor m = true
    · rwa [if_pos hany]
    · rw [if_neg hany]
      exact gridOk_interior hm

/-- Invariant of the run loop: well-formed grid, player on floor, every live
    agent on a distinct in-bounds floor cell away from the player. -/
def SessionInv (s : Session) : Prop :=
  GridOk s.map ∧
  inBounds s.playerX s.playerY = true ∧
  s.map s.playerY s.playerX = '.' ∧
  (∀ e ∈ s.enemies, e.alive = true →
     inBounds e.x e.y = true ∧ s.map e.y e.x = '.' ∧ ¬(e.x = s.playerX ∧ e.y = s.playerY)) ∧
  s.enemies.Pairwise (fun a b => a.alive = true → b.alive = true →
     ¬(a.x = b.x ∧ a.y = b.y))

theorem sessionInv_init (g : RngStream) (diff : Difficulty) (fuel k : Nat)
    (p : Placement) (k' : Nat) (h : regenerate_map g diff fuel k = some (p, k')) :
    SessionInv (initialSession p diff) := by
  obtain ⟨⟨hpb, hpf⟩, hef, _, hep, _, _, hpw, _⟩ := regenerate_spec g diff fuel k p k' h
  have hgok : GridOk p.map := by
    unfold regenerate_map at h
    cases hg : generate_map_basic g fuel k with
    | none => rw [hg] at h; exact absurd h (by simp)
    | some res =>
      obtain ⟨m, rooms, k1⟩ := res
      rw [hg] at h
      have hm := generate_gridOk g fuel k m rooms k1 hg
      simp only [] at h
      split at h
      · exact absurd h (by simp)
      · split at h
        · exact absurd h (by simp)
        · simp only [Option.some.injEq, Prod.mk.injEq] at h
          obtain ⟨hp, _⟩ := h
          rw [← hp]
          exact hm
  refine ⟨hgok, hpb, hpf, ?_, ?_⟩
  · intro e he _
    refine ⟨(hef e he).1, (hef e he).2, ?_⟩
    intro hc
    exact hep e he (Prod.ext hc.1 hc.2)
  · refine List.Pairwise.imp ?_ hpw
    intro a b hab _ _ hc
    exact hab (Prod.ext hc.1 hc.2)

theorem enemy_index_at_none (es : List Enemy) (x y : Int)
    (h : enemy_index_at es x y = none) :
    ∀ e ∈ es, e.alive = true → ¬(e.x = x ∧ e.y = y) := by
  induction es with
  | nil =>
    intro e he
    exact absurd he (by simp)
  | cons e0 es ih =>
    intro e he ha hc
    by_cases hc0 : e0.alive = true ∧ e0.x = x ∧ e0.y = y
    · rw [enemy_index_at, if_pos hc0] at h
      exact absurd h (by simp)
    · rw [enemy_index_at, if_neg hc0, Option.map_eq_none'] at h
      rcases List.mem_cons.mp he with rfl | hmem
      · exact hc0 ⟨ha, hc⟩
      · exact ih h e hmem ha hc

theorem pairwise_distinct_get {l : List Enemy}
    (hp : l.Pairwise (fun a c => a.alive = true → c.alive = true →
      ¬(a.x = c.x ∧ a.y = c.y)))
    {i j : Nat} (hi : i < l.length) (hj : j < l.length) (hne : i ≠ j)
    (hai : (l.get ⟨i, hi⟩).alive = true) (haj : (l.get ⟨j, hj⟩).alive = true) :
    ¬((l.get ⟨i, hi⟩).x = (l.get ⟨j, hj⟩).x ∧ (l.get ⟨i, hi⟩).y = (l.get ⟨j, hj⟩).y) := by
  simp only [List.get_eq_getElem] at hai haj ⊢
  rw [List.pairwise_iff_getElem] at hp
  rcases Nat.lt_or_ge i j with hlt | hge
  · exact hp i j hi hj hlt hai haj
  · intro hc
    exact hp j i hj hi (by omega) haj hai ⟨hc.1.symm, hc.2.symm⟩

theorem pairwise_distinct_set {l : List Enemy} {i : Nat} {b : Enemy}
    (hp : l.Pairwise (fun a c => a.alive = true → c.alive = true →
      ¬(a.x = c.x ∧ a.y = c.y)))
    (hb : ∀ j (hj : j < l.length), j ≠ i → b.alive = true → (l.get ⟨j, hj⟩).alive = true →
          ¬(b.x = (l.get ⟨j, hj⟩).x ∧ b.y = (l.get ⟨j, hj⟩).y)) :
    (l.set i b).Pairwise (fun a c => a.alive = true → c.alive = true →
      ¬(a.x = c.x ∧ a.y = c.y)) := by
  simp only [List.get_eq_getElem] at hb
  rw [List.pairwise_iff_getElem] at hp ⊢
  intro j1 j2 h1 h2 hlt
  rw [List.length_set] at h1 h2
  simp only [List.getElem_set]
  by_cases he1 : i = j1
  · rw [if_pos he1, if_neg (by omega)]
    subst he1
    intro hb1 ha2 hc
    exact hb j2 h2 (by omega) hb1 ha2 hc
  · rw [if_neg he1]
    by_cases he2 : i = j2
    · rw [if_pos he2]
      subst he2
      intro ha1 hb2 hc
      exact hb j1 h1 (by omega) hb2 ha1 ⟨hc.1.symm, hc.2.symm⟩
    · rw [if_neg he2]
      exact hp j1 j2 h1 h2 hlt

theorem applyPlayerAction_inv (s : Session) (nx ny : Int) (g : RngStream) (k : Nat)
    (hb : inBounds nx ny = true) (hinv : SessionInv s) :
    SessionInv (applyPlayerAction s nx ny g k).1 := by
  obtain ⟨hgok, hpb, hpf, helem, hpw⟩ := hinv
  by_cases hw : s.map ny nx = '#'
  · simp only [applyPlayerAction, if_pos hw]
    exact ⟨hgok, hpb, hpf, helem, hpw⟩
  · have hfl : s.map ny nx = '.' := (hgok nx ny).resolve_left hw
    cases he : enemy_index_at s.enemies nx ny with
    | some eidx =>
      obtain ⟨hlen, halive, hex, hey⟩ := enemy_index_at_spec s.enemies nx ny eidx he
      have hgd : s.enemies.getD eidx junkEnemy = s.enemies[eidx] := by
        rw [List.getD_eq_getElem?_getD, List.getElem?_eq_getElem hlen]
        rfl
      have hex2 : s.enemies[eidx].x = nx := by rw [← hgd]; exact hex
      have hey2 : s.enemies[eidx].y = ny := by rw [← hgd]; exact hey
      have halive2 : s.enemies[eidx].alive = true := by rw [← hgd]; exact halive
      have hmem : s.enemies[eidx] ∈ s.enemies := by
        first
        | exact List.getElem_mem hlen
        | exact List.getElem_mem _ _ hlen
      have htgt := helem _ hmem halive2
      by_cases hkill : (s.enemies.getD eidx junkEnemy).hp - s.playerAttack ≤ 0
      · simp only [applyPlayerAction, if_neg hw, he]
        rw [if_pos hkill]
        refine ⟨hgok, hb, hfl, ?_, ?_⟩
        · intro e2 he2 ha2
          rw [List.mem_iff_getElem] at he2
          obtain ⟨j, hj, hje⟩ := he2
          rw [List.length_set] at hj
          rw [List.getElem_set] at hje
          by_cases hji : eidx = j
          · rw [if_pos hji] at hje
            rw [← hje] at ha2
            exact absurd ha2 (by simp)
          · rw [if_neg hji] at hje
            subst hje
            have hmemj : s.enemies[j] ∈ s.enemies := by
              first
              | exact List.getElem_mem hj
              | exact List.getElem_mem _ _ hj
            obtain ⟨hj1, hj2, _⟩ := helem _ hmemj ha2
            refine ⟨hj1, hj2, ?_⟩
            intro hc
            have hpd := pairwise_distinct_get hpw hj hlen (fun hh => hji hh.symm) ha2 halive2
            simp only [List.get_eq_getElem] at hpd
            exact hpd ⟨hc.1.trans hex2.symm, hc.2.trans hey2.symm⟩
        · refine pairwise_distinct_set hpw ?_
          intro j hj hne hbad
          exact absurd hbad (by simp)
      · simp only [applyPlayerAction, if_neg hw, he]
        rw [if_neg hkill]
        refine ⟨hgok, hpb, hpf, ?_, ?_⟩
        · intro e2 he2 ha2
          rw [List.mem_iff_getElem] at he2
          obtain ⟨j, hj, hje⟩ := he2
          rw [List.length_set] at hj
          rw [List.getElem_set] at hje
          by_cases hji : eidx = j
          · rw [if_pos hji] at hje
            rw [← hje]
            simp only [hgd]
            exact htgt
          · rw [if_neg hji] at hje
            subst hje
            have hmemj : s.enemies[j] ∈ s.enemies := by
              first
              | exact List.getElem_mem hj
              | exact List.getElem_mem _ _ hj
            exact helem _ hmemj ha2
        · refine pairwise_distinct_set hpw ?_
          intro j hj hne hba hja
          simp only [List.get_eq_getElem] at hja ⊢
          have hpd := pairwise_distinct_get hpw hlen hj (fun hh => hne hh.symm) halive2 hja
          simp only [List.get_eq_getElem] at hpd
          intro hc
          refine hpd ?_
          refine ⟨?_, ?_⟩
          · rw [← hc.1]
            simp only [hgd]
          · rw [← hc.2]
            simp only [hgd]
    | none =>
      have hnone := enemy_index_at_none s.enemies nx ny he
      cases hit : item_index_at s.items nx ny with
      | some itidx =>
        simp only [applyPlayerAction, if_neg hw, he, hit]
        refine ⟨hgok, hb, hfl, ?_, hpw⟩
        intro e2 he2 ha2
        obtain ⟨h1, h2, _⟩ := helem e2 he2 ha2
        exact ⟨h1, h2, hnone e2 he2 ha2⟩
      | none =>
        simp only [applyPlayerAction, if_neg hw, he, hit]
        refine ⟨hgok, hb, hfl, ?_, hpw⟩
        intro e2 he2 ha2
        obtain ⟨h1, h2, _⟩ := helem e2 he2 ha2
        exact ⟨h1, h2, hnone e2 he2 ha2⟩

theorem mapM_option_spec {α β : Type} (f : α → Option β) :
    ∀ (l : List α) (l2 : List β), l.mapM f = some l2 →
    l2.length = l.length ∧
    ∀ i, i < l.length → ∃ a b, l[i]? = some a ∧ l2[i]? = some b ∧ f a = some b := by
  intro l
  induction l with
  | nil =>
    intro l2 h
    rw [List.mapM_nil] at h
    injection h with h
    subst h
    exact ⟨rfl, fun i hi => absurd hi (by simp)⟩
  | cons a l ih =>
    intro l2 h
    rw [List.mapM_cons] at h
    cases hfa : f a with
    | none =>
      rw [hfa] at h
      exact absurd h (by simp)
    | some b =>
      cases hml : l.mapM f with
      | none =>
        rw [hfa, hml] at h
        exact absurd h (by simp)
      | some bs =>
        rw [hfa, hml] at h
        simp only [Option.pure_def, Option.bind_eq_bind, Option.some_bind,
          Option.some.injEq] at h
        subst h
        obtain ⟨hlen, hidx⟩ := ih bs hml
        refine ⟨by simp [hlen], ?_⟩
        intro i hi
        cases i with
        | zero => exact ⟨a, b, by simp, by simp, hfa⟩
        | succ j =>
          obtain ⟨a2, b2, h1, h2, h3⟩ := hidx j (by simpa using hi)
          exact ⟨a2, b2, by simpa using h1, by simpa using h2, h3⟩

theorem occFor_mem (enemies : List Enemy) (i j : Nat) (hj : j < enemies.length)
    (hne : j ≠ i) (halive : (enemies.get ⟨j, hj⟩).alive = true) :
    ((enemies.get ⟨j, hj⟩).x, (enemies.get ⟨j, hj⟩).y) ∈ occFor enemies i := by
  simp only [List.get_eq_getElem] at halive ⊢
  unfold occFor
  rw [List.mem_map]
  refine ⟨(j, enemies[j]), ?_, rfl⟩
  rw [List.mem_filter]
  constructor
  · rw [List.mem_iff_getElem]
    refine ⟨j, by rw [List.enum_length]; exact hj, ?_⟩
    rw [List.getElem_enum]
  · simp [hne, halive]

theorem planMoves_spec (s : Session) (nextPos : List Cell)
    (h : planMoves s = some nextPos) :
    nextPos.length = s.enemies.length ∧
    ∀ i (hi : i < s.enemies.length),
      (s.enemies.get ⟨i, hi⟩).alive = true →
      ∃ c, nextPos[i]? = some c ∧
        bfs_next_step s.map (s.enemies.get ⟨i, hi⟩).x (s.enemies.get ⟨i, hi⟩).y
          s.playerX s.playerY (occFor s.enemies i) = some c := by
  unfold planMoves at h
  obtain ⟨hlen, hidx⟩ := mapM_option_spec _ _ _ h
  constructor
  · rw [hlen, List.enum_length]
  · intro i hi halive
    simp only [List.get_eq_getElem] at halive ⊢
    have hi2 : i < s.enemies.enum.length := by rw [List.enum_length]; exact hi
    obtain ⟨a, b, ha, hb, hf⟩ := hidx i hi2
    rw [List.getElem?_eq_getElem hi2, List.getElem_enum] at ha
    injection ha with ha
    subst ha
    dsimp only at hf
    rw [if_pos halive] at hf
    exact ⟨b, hb, hf⟩

/-- Per-agent facts carried into the resolution loop: a live pending agent sits
    in bounds on a floor cell away from the player, and its intended destination
    is the player, its own cell, or an in-bounds cell. -/
def PendOk (map : Grid) (px py : Int) (ec : Enemy × Cell) : Prop :=
  ec.1.alive = true →
    inBounds ec.1.x ec.1.y = true ∧ map ec.1.y ec.1.x = '.' ∧
    ¬(ec.1.x = px ∧ ec.1.y = py) ∧
    (ec.2 = (px, py) ∨ ec.2 = (ec.1.x, ec.1.y) ∨ inB ec.2 = true)

/-- Cross-agent facts for the resolution loop, between an earlier agent `a` and
    a later agent `b`: distinct cells, and the earlier intent avoids the later
    agent's cell unless it targets the player. -/
def PendRel (px py : Int) (a b : Enemy × Cell) : Prop :=
  a.1.alive = true → b.1.alive = true →
    ¬(a.1.x = b.1.x ∧ a.1.y = b.1.y) ∧ (a.2 = (px, py) ∨ a.2 ≠ (b.1.x, b.1.y))

theorem resolveMoves_inv (map : Grid) (aMin aMax px py : Int) (g : RngStream) :
    ∀ (l : List (Enemy × Cell)) (res : List Cell) (hp : Int) (k : Nat),
    (∀ ec ∈ l, PendOk map px py ec) →
    l.Pairwise (PendRel px py) →
    (∀ ec ∈ l, ec.1.alive = true → (ec.1.x, ec.1.y) ∉ res) →
    (∀ e2 ∈ (resolveMoves map aMin aMax px py g l res hp k).1, e2.alive = true →
       inBounds e2.x e2.y = true ∧ map e2.y e2.x = '.' ∧
       ¬(e2.x = px ∧ e2.y = py) ∧ (e2.x, e2.y) ∉ res) ∧
    (resolveMoves map aMin aMax px py g l res hp k).1.Pairwise
      (fun a c => a.alive = true → c.alive = true → ¬(a.x = c.x ∧ a.y = c.y)) := by
  intro l
  induction l with
  | nil =>
    intro res hp k _ _ _
    constructor
    · intro e2 he2
      rw [resolveMoves] at he2
      exact absurd he2 (by simp)
    · rw [resolveMoves]
      exact List.Pairwise.nil
  | cons ec rest ih =>
    intro res hp k hPend hrel hres
    obtain ⟨e, c⟩ := ec
    have hPendE := hPend (e, c) (by simp)
    have hPendR : ∀ ec2 ∈ rest, PendOk map px py ec2 :=
      fun ec2 h2 => hPend ec2 (List.mem_cons_of_mem _ h2)
    have hrelH : ∀ ec2 ∈ rest, PendRel px py (e, c) ec2 :=
      (List.pairwise_cons.mp hrel).1
    have hrelR : rest.Pairwise (PendRel px py) := (List.pairwise_cons.mp hrel).2
    have hresR : ∀ ec2 ∈ rest, ec2.1.alive = true → (ec2.1.x, ec2.1.y) ∉ res :=
      fun ec2 h2 => hres ec2 (List.mem_cons_of_mem _ h2)
    rw [resolveMoves]
    by_cases ha : e.alive = false
    · rw [if_pos ha]
      simp only []
      obtain ⟨ihA, ihB⟩ := ih res hp k hPendR hrelR hresR
      constructor
      · intro e2 he2 ha2
        rcases List.mem_cons.mp he2 with rfl | hmem
        · rw [ha] at ha2
          exact absurd ha2 (by simp)
        · exact ihA e2 hmem ha2
      · refine List.pairwise_cons.mpr ⟨?_, ihB⟩
        intro b hb hae
        rw [ha] at hae
        exact absurd hae (by simp)
    · have hae : e.alive = true := by
        cases hcase : e.alive
        · exact absurd hcase ha
        · rfl
      obtain ⟨hbnd, hflr, hnp, hint⟩ := hPendE hae
      have hresH : (e.x, e.y) ∉ res := hres (e, c) (by simp) hae
      rw [if_neg (by rw [hae]; simp)]
      by_cases hatk : c.1 = px ∧ c.2 = py
      · rw [if_pos hatk]
        simp only []
        have hresR2 : ∀ ec2 ∈ rest, ec2.1.alive = true →
            (ec2.1.x, ec2.1.y) ∉ List.insert (e.x, e.y) res := by
          intro ec2 h2 ha2 hmem
          rcases List.mem_insert_iff.mp hmem with heq | hmem2
          · have hd := (hrelH ec2 h2 hae ha2).1
            have h1 : ec2.1.x = e.x := by
              have := congrArg Prod.fst heq
              simpa using this
            have h2y : ec2.1.y = e.y := by
              have := congrArg Prod.snd heq
              simpa using this
            exact hd ⟨h1.symm, h2y.symm⟩
          · exact hresR ec2 h2 ha2 hmem2
        obtain ⟨ihA, ihB⟩ := ih (List.insert (e.x, e.y) res) _ _ hPendR hrelR hresR2
        constructor
        · intro e2 he2 ha2
          rcases List.mem_cons.mp he2 with rfl | hmem
          · exact ⟨hbnd, hflr, hnp, hresH⟩
          · obtain ⟨j1, j2, j3, j4⟩ := ihA e2 hmem ha2
            exact ⟨j1, j2, j3, fun hmem2 => j4 (List.mem_insert_iff.mpr (Or.inr hmem2))⟩
        · refine List.pairwise_cons.mpr ⟨?_, ihB⟩
          intro b hb hae2 hab hcpos
          have hnin := (ihA b hb hab).2.2.2
          exact hnin (List.mem_insert_iff.mpr (Or.inl (Prod.ext hcpos.1.symm hcpos.2.symm)))
      · rw [if_neg hatk]
        by_cases hblk : c.1 < 0 ∨ map c.2 c.1 ≠ '.' ∨ c ∈ res
        · rw [if_pos hblk]
          simp only []
          have hresR2 : ∀ ec2 ∈ rest, ec2.1.alive = true →
              (ec2.1.x, ec2.1.y) ∉ List.insert (e.x, e.y) res := by
            intro ec2 h2 ha2 hmem
            rcases List.mem_insert_iff.mp hmem with heq | hmem2
            · have hd := (hrelH ec2 h2 hae ha2).1
              have h1 : ec2.1.x = e.x := by
                have := congrArg Prod.fst heq
                simpa using this
              have h2y : ec2.1.y = e.y := by
                have := congrArg Prod.snd heq
                simpa using this
              exact hd ⟨h1.symm, h2y.symm⟩
            · exact hresR ec2 h2 ha2 hmem2
          obtain ⟨ihA, ihB⟩ := ih (List.insert (e.x, e.y) res) _ _ hPendR hrelR hresR2
          constructor
          · intro e2 he2 ha2
            rcases List.mem_cons.mp he2 with rfl | hmem
            · exact ⟨hbnd, hflr, hnp, hresH⟩
            · obtain ⟨j1, j2, j3, j4⟩ := ihA e2 hmem ha2
              exact ⟨j1, j2, j3, fun hmem2 => j4 (List.mem_insert_iff.mpr (Or.inr hmem2))⟩
          · refine List.pairwise_cons.mpr ⟨?_, ihB⟩
            intro b hb hae2 hab hcpos
            have hnin := (ihA b hb hab).2.2.2
            exact hnin (List.mem_insert_iff.mpr (Or.inl (Prod.ext hcpos.1.symm hcpos.2.symm)))
        · rw [if_neg hblk]
          simp only []
          push_neg at hblk
          obtain ⟨hcx, hcfl, hcres⟩ := hblk
          have hcne : c ≠ (px, py) := by
            intro hcc
            refine hatk ⟨?_, ?_⟩
            · rw [hcc]
            · rw [hcc]
          have hresR2 : ∀ ec2 ∈ rest, ec2.1.alive = true →
              (ec2.1.x, ec2.1.y) ∉ List.insert c res := by
            intro ec2 h2 ha2 hmem
            rcases List.mem_insert_iff.mp hmem with heq | hmem2
            · rcases (hrelH ec2 h2 hae ha2).2 with hcp | hcd
              · exact hcne hcp
              · exact hcd heq.symm
            · exact hresR ec2 h2 ha2 hmem2
          obtain ⟨ihA, ihB⟩ := ih (List.insert c res) _ _ hPendR hrelR hresR2
          constructor
          · intro e2 he2 ha2
            rcases List.mem_cons.mp he2 with rfl | hmem
            · refine ⟨?_, hcfl, ?_, hcres⟩
              · rcases hint with hi1 | hi2 | hi3
                · exact absurd hi1 hcne
                · have h1 : c.1 = e.x := by
                    have := congrArg Prod.fst hi2
                    simpa using this
                  have h2 : c.2 = e.y := by
                    have := congrArg Prod.snd hi2
                    simpa using this
                  show inBounds c.1 c.2 = true
                  rw [h1, h2]
                  exact hbnd
                · exact hi3
              · exact hatk
            · obtain ⟨j1, j2, j3, j4⟩ := ihA e2 hmem ha2
              exact ⟨j1, j2, j3, fun hmem2 => j4 (List.mem_insert_iff.mpr (Or.inr hmem2))⟩
          · refine List.pairwise_cons.mpr ⟨?_, ihB⟩
            intro b hb hae2 hab hcpos
            have hnin := (ihA b hb hab).2.2.2
            exact hnin (List.mem_insert_iff.mpr (Or.inl (Prod.ext hcpos.1.symm hcpos.2.symm)))

theorem zip_pend_ok (s : Session) (nextPos : List Cell)
    (hinv : SessionInv s) (hplan : planMoves s = some nextPos) :
    (∀ ec ∈ s.enemies.zip nextPos, PendOk s.map s.playerX s.playerY ec) ∧
    (s.enemies.zip nextPos).Pairwise (PendRel s.playerX s.playerY) := by
  obtain ⟨hgok, hpb, hpf, helem, hpw⟩ := hinv
  obtain ⟨hlen, hidx⟩ := planMoves_spec s nextPos hplan
  have hlz : (s.enemies.zip nextPos).length = s.enemies.length := by
    rw [List.length_zip, hlen]
    omega
  have hget : ∀ i (hi : i < (s.enemies.zip nextPos).length),
      ∃ (he : i < s.enemies.length),
        (s.enemies.zip nextPos).get ⟨i, hi⟩ =
          (s.enemies.get ⟨i, he⟩, nextPos.getD i ((-1 : Int), (-1 : Int))) := by
    intro i hi
    have he : i < s.enemies.length := by rw [← hlz]; exact hi
    have hn : i < nextPos.length := by rw [hlen]; exact he
    refine ⟨he, ?_⟩
    simp only [List.get_eq_getElem, List.getElem_zip]
    rw [List.getD_eq_getElem?_getD, List.getElem?_eq_getElem hn]
    rfl
  have hbfsfact : ∀ i (he : i < s.enemies.length),
      (s.enemies.get ⟨i, he⟩).alive = true →
      bfs_next_step s.map (s.enemies.get ⟨i, he⟩).x (s.enemies.get ⟨i, he⟩).y
        s.playerX s.playerY (occFor s.enemies i) =
        some (nextPos.getD i ((-1 : Int), (-1 : Int))) := by
    intro i he hal
    obtain ⟨cc, hcc, hbfs⟩ := hidx i he hal
    rw [List.getD_eq_getElem?_getD, hcc]
    exact hbfs
  constructor
  · intro ec hec
    rw [List.mem_iff_getElem] at hec
    obtain ⟨i, hi, hie⟩ := hec
    have hget2 := hget i hi
    obtain ⟨he, hval⟩ := hget2
    simp only [List.get_eq_getElem] at hval
    rw [hval] at hie
    subst hie
    intro hal
    dsimp only at hal ⊢
    have hmem : s.enemies[i] ∈ s.enemies := by
      first
      | exact List.getElem_mem he
      | exact List.getElem_mem _ _ he
    obtain ⟨j1, j2, j3⟩ := helem _ hmem hal
    refine ⟨j1, j2, j3, ?_⟩
    have hbfs := hbfsfact i he (by simpa using hal)
    simp only [List.get_eq_getElem] at hbfs
    rcases bfs_next_step_safe _ _ _ _ _ _ _ hbfs with hr | ⟨hrb, _⟩
    · exact Or.inr (Or.inl hr)
    · exact Or.inr (Or.inr hrb)
  · rw [List.pairwise_iff_getElem]
    intro i j hi hj hlt
    obtain ⟨hei, hvi⟩ := hget i hi
    obtain ⟨hej, hvj⟩ := hget j hj
    simp only [List.get_eq_getElem] at hvi hvj
    rw [hvi, hvj]
    intro hai haj
    dsimp only at hai haj ⊢
    have hdist := pairwise_distinct_get hpw hei hej (by omega) (by simpa using hai)
      (by simpa using haj)
    simp only [List.get_eq_getElem] at hdist
    refine ⟨hdist, ?_⟩
    have hbfs := hbfsfact i hei (by simpa using hai)
    simp only [List.get_eq_getElem] at hbfs
    by_cases hcp : nextPos.getD i ((-1 : Int), (-1 : Int)) = (s.playerX, s.playerY)
    · exact Or.inl hcp
    · right
      rcases bfs_next_step_safe _ _ _ _ _ _ _ hbfs with hr | ⟨_, hblk⟩
      · intro hcc
        rw [hr] at hcc
        exact hdist ⟨by simpa using congrArg Prod.fst hcc,
          by simpa using congrArg Prod.snd hcc⟩
      · intro hcc
        have hocc := occFor_mem s.enemies i j hej (by omega) (by simpa using haj)
        simp only [List.get_eq_getElem] at hocc
        rw [← hcc] at hocc
        exact stepBlk_false_occ hblk hcp hocc

theorem rescan_noop (atkMin atkMax px py : Int) (g : RngStream) :
    ∀ (es : List Enemy) (hp : Int) (k : Nat),
    (∀ e ∈ es, e.alive = true → ¬(e.x = px ∧ e.y = py)) →
    rescanHits atkMin atkMax px py g es hp k = (hp, k) := by
  intro es
  induction es with
  | nil =>
    intro hp k _
    rw [rescanHits]
  | cons e rest ih =>
    intro hp k hno
    rw [rescanHits]
    rw [if_neg ?_]
    · exact ih hp k (fun e2 h2 => hno e2 (List.mem_cons_of_mem _ h2))
    · intro hc
      exact hno e (by simp) hc.1 ⟨hc.2.1, hc.2.2⟩

theorem enemyPhase_post (s : Session) (g : RngStream) (k : Nat)
    (hinv : SessionInv s) (nextPos : List Cell) (hplan : planMoves s = some nextPos) :
    (∀ e2 ∈ (resolveMoves s.map (diffConfigs s.diff).enemyAtkMin
        (diffConfigs s.diff).enemyAtkMax s.playerX s.playerY g
        (s.enemies.zip nextPos) [] s.playerHP k).1, e2.alive = true →
       inBounds e2.x e2.y = true ∧ s.map e2.y e2.x = '.' ∧
       ¬(e2.x = s.playerX ∧ e2.y = s.playerY)) ∧
    (resolveMoves s.map (diffConfigs s.diff).enemyAtkMin
        (diffConfigs s.diff).enemyAtkMax s.playerX s.playerY g
        (s.enemies.zip nextPos) [] s.playerHP k).1.Pairwise
      (fun a c => a.alive = true → c.alive = true → ¬(a.x = c.x ∧ a.y = c.y)) := by
  obtain ⟨hPend, hrel⟩ := zip_pend_ok s nextPos hinv hplan
  obtain ⟨hA, hB⟩ := resolveMoves_inv s.map (diffConfigs s.diff).enemyAtkMin
    (diffConfigs s.diff).enemyAtkMax s.playerX s.playerY g
    (s.enemies.zip nextPos) [] s.playerHP k hPend hrel (by simp)
  refine ⟨?_, hB⟩
  intro e2 he2 ha2
  obtain ⟨j1, j2, j3, _⟩ := hA e2 he2 ha2
  exact ⟨j1, j2, j3⟩

theorem enemyPhase_inv (s : Session) (g : RngStream) (k : Nat) (s2 : Session) (k2 : Nat)
    (hinv : SessionInv s) (h : enemyPhase s g k = some (s2, k2)) :
    SessionInv s2 := by
  unfold enemyPhase at h
  cases hpm : planMoves s with
  | none =>
    rw [hpm] at h
    exact absurd h (by simp)
  | some nextPos =>
    rw [hpm] at h
    simp only [Option.some.injEq, Prod.mk.injEq] at h
    obtain ⟨hs2, _⟩ := h
    obtain ⟨hA, hB⟩ := enemyPhase_post s g k hinv nextPos hpm
    obtain ⟨hgok, hpb, hpf, _, _⟩ := hinv
    rw [← hs2]
    exact ⟨hgok, hpb, hpf, hA, hB⟩

theorem loopIter_next_inv (s : Session) (hs : Int) (input : Option Char) (g : RngStream)
    (k : Nat) (s2 : Session) (k2 : Nat) (hinv : SessionInv s)
    (h : loopIter s hs input g k = some (.next s2, k2)) : SessionInv s2 := by
  unfold loopIter at h
  split at h
  · exact absurd h (by simp)
  · cases input with
    | none => exact absurd h (by simp)
    | some ch =>
      simp only [] at h
      split at h
      · exact absurd h (by simp)
      · cases hmd : moveDelta ch with
        | none =>
          rw [hmd] at h
          exact absurd h (by simp)
        | some d =>
          rw [hmd] at h
          simp only [] at h
          split at h
          · exact absurd h (by simp)
          · rename_i hoob
            have hbnd : inBounds (s.playerX + d.1) (s.playerY + d.2) = true := by
              unfold inBounds
              simp only [MAP_W, MAP_H] at hoob ⊢
              push_neg at hoob
              simp only [Bool.and_eq_true, decide_eq_true_eq]
              omega
            have hinv1 := applyPlayerAction_inv s (s.playerX + d.1) (s.playerY + d.2)
              g k hbnd hinv
            cases hep : enemyPhase (applyPlayerAction s (s.playerX + d.1)
                (s.playerY + d.2) g k).1 g (applyPlayerAction s (s.playerX + d.1)
                (s.playerY + d.2) g k).2 with
            | none =>
              rw [hep] at h
              exact absurd h (by simp)
            | some res =>
              obtain ⟨s3, k3⟩ := res
              rw [hep] at h
              simp only [Option.some.injEq, Prod.mk.injEq, StepResult.next.injEq] at h
              obtain ⟨hs3, _⟩ := h
              rw [← hs3]
              exact enemyPhase_inv _ g _ s3 k3 hinv1 hep

/-- Every reachable state satisfies the session invariant. -/
theorem reachable_inv (s : Session) (h : Reachable s) : SessionInv s := by
  induction h with
  | init g diff fuel k p kp hreg => exact sessionInv_init g diff fuel k p kp hreg
  | step s1 s2 hs input g k k2 hr hstep ih =>
    exact loopIter_next_inv s1 hs input g k s2 k2 ih hstep

/-- C9: collision safety — in every state reachable from an initial Session by
    player actions and agent turn resolutions, no two live agents occupy the
    same cell (planning lists every other live agent's pre-move position as an
    obstacle and resolution's reservation set keeps destinations exclusive). -/
theorem C9_collision_safety (s : Session) (hr : Reachable s) :
    s.enemies.Pairwise (fun a b => a.alive = true → b.alive = true →
      ¬(a.x = b.x ∧ a.y = b.y)) :=
  (reachable_inv s hr).2.2.2.2

theorem C9_collision_safety_witness :
    (initialSession pW7 .NORMAL).enemies.Pairwise (fun a b => a.alive = true →
      b.alive = true → ¬(a.x = b.x ∧ a.y = b.y)) :=
  C9_collision_safety (initialSession pW7 .NORMAL)
    (Reachable.init gW7 .NORMAL 40 0 pW7 27 rfl)

/-- C10: in every reachable state, at the end of a turn's agent resolution no
    live agent occupies the player's cell — an agent aiming at the player is
    kept (and re-reserved) at its original cell and no other branch moves an
    agent onto the player — so the post-resolution re-scan that would deal a
    second damage roll to a co-located agent never fires (it is an identity on
    the player's HP and the RNG cursor). -/
theorem C10_rescan_never_fires (s : Session) (hr : Reachable s)
    (nx ny : Int) (hb : inBounds nx ny = true) (g : RngStream) (k0 k : Nat)
    (nextPos : List Cell)
    (hplan : planMoves (applyPlayerAction s nx ny g k0).1 = some nextPos) :
    (let s1 := (applyPlayerAction s nx ny g k0).1
     let out := resolveMoves s1.map (diffConfigs s1.diff).enemyAtkMin
        (diffConfigs s1.diff).enemyAtkMax s1.playerX s1.playerY g
        (s1.enemies.zip nextPos) [] s1.playerHP k
     (∀ e ∈ out.1, e.alive = true → ¬(e.x = s1.playerX ∧ e.y = s1.playerY)) ∧
     ∀ hp2 k2, rescanHits (diffConfigs s1.diff).enemyAtkMin
        (diffConfigs s1.diff).enemyAtkMax s1.playerX s1.playerY g out.1 hp2 k2 =
        (hp2, k2)) := by
  intro s1 out
  have hinv1 : SessionInv s1 := applyPlayerAction_inv s nx ny g k0 hb (reachable_inv s hr)
  obtain ⟨hA, _⟩ := enemyPhase_post s1 g k hinv1 nextPos hplan
  have hno : ∀ e ∈ out.1, e.alive = true → ¬(e.x = s1.playerX ∧ e.y = s1.playerY) :=
    fun e he ha => (hA e he ha).2.2
  exact ⟨hno, fun hp2 k2 => rescan_noop _ _ _ _ g out.1 hp2 k2 hno⟩

/-- The planned steps in the C10 witness scenario. -/
def nextPosW : List Cell :=
  (planMoves (applyPlayerAction (initialSession pW7 .NORMAL) 2 3 gW7 27).1).getD []

set_option maxRecDepth 4000 in
theorem C10_rescan_never_fires_witness :
    (let s1 := (applyPlayerAction (initialSession pW7 .NORMAL) 2 3 gW7 27).1
     let out := resolveMoves s1.map (diffConfigs s1.diff).enemyAtkMin
        (diffConfigs s1.diff).enemyAtkMax s1.playerX s1.playerY gW7
        (s1.enemies.zip nextPosW) [] s1.playerHP 27
     (∀ e ∈ out.1, e.alive = true → ¬(e.x = s1.playerX ∧ e.y = s1.playerY)) ∧
     ∀ hp2 k2, rescanHits (diffConfigs s1.diff).enemyAtkMin
        (diffConfigs s1.diff).enemyAtkMax s1.playerX s1.playerY gW7 out.1 hp2 k2 =
        (hp2, k2)) :=
  C10_rescan_never_fires (initialSession pW7 .NORMAL)
    (Reachable.init gW7 .NORMAL 40 0 pW7 27 rfl) 2 3 (by decide) gW7 27 27 nextPosW rfl

end Roguelike
